import Mathlib

/-!
# coalfoot: txtarTemplate.go

A shallow embedding of `txtarTemplate.go` (package `coalfoot`) together with
the parts of its environment the functions touch:

* `path/filepath` on Unix (`Clean`, `Join`, `Dir`, `Base`), lexical only;
* a file system without symbolic links, keyed by cleaned paths;
* `golang.org/x/tools/txtar` (`Parse`, `ParseFile`);
* `mymazda.FileExists` / `mymazda.DirExists`;
* the network (`http.Get`) and the clock, as oracles.

## Conventions

* Strings are sequences of Unicode code points (well-formed UTF-8), so the
  byte-level scans of the Go libraries for `/`, newline and `-- ` are scans
  for the corresponding characters.
* A Go `error` is an `Option`: `none` is nil.
* A string that `filepath.Clean` returned is represented by its normal form,
  a `Path`; `Path.render` gives the string back. `DirClean` and `JoinClean`
  are `filepath.Dir` and `filepath.Join` on such strings (`Dir_render`,
  `Join_render`, `Clean_render`).
* The file system maps cleaned paths to what they name. The paths `/`, `.`,
  `..`, `../..`, ... always name directories. There are no symbolic links,
  and a relative path never names the same thing as an absolute one.
* A path string the program passes to the operating system without cleaning
  it (`LocalPathRendered`, `LocalPathUnrendered`) is resolved by `lookupPath`:
  element by element, through directories that must exist. So
  `/tmp/missing/../coalfoot/1.txtar` names nothing when `/tmp/missing` does
  not exist, although it cleans to `/tmp/coalfoot/1.txtar`
  (`lookupPath_examples`).
* Every operation fails when the state of the file system makes it fail
  (`os.Create` below a missing directory, `os.MkdirAll` through a regular
  file). Failures for other reasons (permissions, full disk, network) are
  inputs: `Fault` for the write loop of `Extract`, `Env` for the fetch
  functions.
* The structure `World` adds two counters to the file system, so that "no
  GET was issued" and "`FetchRemoteToLocal` was called once" can be stated.

The definitions come first, then the lemmas and the theorems, one section per
property.
-/

namespace Coalfoot

/-! ## path/filepath -/

/-- A cleaned path in normal form: `abs` tells whether it is rooted, `rev`
lists its elements innermost first. `⟨true, []⟩` is `/`, `⟨false, []⟩` is `.`,
`⟨false, ["b", "a"]⟩` is `a/b`, `⟨false, ["x", ".."]⟩` is `../x`. -/
structure Path where
  abs : Bool
  rev : List String
  deriving DecidableEq

/-- The pieces of a string between slashes (`strings.Split(s, "/")`). -/
def splitChars : List Char → List (List Char)
  | [] => [[]]
  | c :: cs =>
    if c = '/' then [] :: splitChars cs
    else
      match splitChars cs with
      | [] => [[c]]
      | h :: t => (c :: h) :: t

/-- The slash-separated elements of a string, empty ones included. -/
def elems (s : String) : List String :=
  (splitChars s.data).map String.mk

/-- One step of `filepath.Clean`: process the next element `e` on the
cleaned path built so far. Empty and `.` elements are dropped; `..` removes
the preceding element when there is one that is not itself `..`, is dropped
at the root, and is kept at the start of a relative path; anything else is
appended. -/
def pushElem (p : Path) (e : String) : Path :=
  if e = "" ∨ e = "." then p
  else if e = ".." then
    match p.rev with
    | [] => if p.abs then p else ⟨false, [".."]⟩
    | d :: rest => if d = ".." then ⟨p.abs, ".." :: d :: rest⟩ else ⟨p.abs, rest⟩
  else ⟨p.abs, e :: p.rev⟩

/-- Whether a string starts with a slash. -/
def rooted (s : String) : Bool :=
  match s.data with
  | '/' :: _ => true
  | _ => false

/-- The function `filepath.Clean`, returning the cleaned path in normal form. The empty
string cleans to `.`. -/
def Clean (s : String) : Path :=
  (elems s).foldl pushElem ⟨rooted s, []⟩

/-- The elements joined with slashes (`strings.Join(es, "/")`). -/
def joinSlash : List String → List Char
  | [] => []
  | e :: es => e.data ++ (if es = [] then [] else '/' :: joinSlash es)

/-- The string a cleaned path stands for. -/
def Path.render (p : Path) : String :=
  match p.abs, p.rev with
  | true, rev => String.mk ('/' :: joinSlash rev.reverse)
  | false, [] => "."
  | false, rev => String.mk (joinSlash rev.reverse)

/-- The function `filepath.Join(a, b)`: leading empty arguments are skipped, the rest is
joined with slashes and cleaned; when both are empty the result is the empty
string, which is `none` here. -/
def Join (a b : String) : Option Path :=
  if a = "" then (if b = "" then none else some (Clean b))
  else some (Clean (a ++ "/" ++ b))

/-- The function `filepath.Join(a, b)` as a string. -/
def JoinStr (a b : String) : String :=
  match Join a b with
  | none => ""
  | some p => p.render

/-- The function `filepath.Join(d, b)` for an already cleaned first argument `d`: the
elements of `b` are processed on top of `d`. -/
def JoinClean (d : Path) (b : String) : Path :=
  (elems b).foldl pushElem d

/-- The part of a string up to and including its last slash. -/
def uptoLastSlash (l : List Char) : List Char :=
  (l.reverse.dropWhile (fun c => c ≠ '/')).reverse

/-- The function `filepath.Dir` on an arbitrary string: everything up to the last slash,
cleaned. -/
def Dir (s : String) : Path :=
  Clean (String.mk (uptoLastSlash s.data))

/-- The function `filepath.Dir` on the result of `Join` (a cleaned string, or the empty
string): the last element is removed; `Dir("")`, `Dir(".")` and `Dir("..")`
are `.`, `Dir("/")` is `/`. -/
def DirClean : Option Path → Path
  | none => ⟨false, []⟩
  | some p => ⟨p.abs, p.rev.tail⟩

/-- The function `filepath.Base`: the last element of a string; trailing slashes are
removed first, the empty string gives `.` and a string of slashes gives `/`. -/
def Base (s : String) : String :=
  if s = "" then "."
  else
    let stripped := s.data.reverse.dropWhile (fun c => c = '/')
    let last := (stripped.takeWhile (fun c => c ≠ '/')).reverse
    if last = [] then "/" else String.mk last

/-- Lexical containment: `p` is `d` or lies below it. -/
def Path.under (p d : Path) : Prop :=
  p.abs = d.abs ∧ d.rev <:+ p.rev

instance (p d : Path) : Decidable (p.under d) := by
  unfold Path.under; exact inferInstance

/-! ## File system -/

/-- What a path names. -/
inductive Node where
  | file (data : String)
  | dir
  deriving DecidableEq

/-- A file system without symbolic links: what each cleaned path names, if
anything. Relative paths are read against a fixed working directory and are
never aliases of absolute ones. -/
abbrev FS := Path → Option Node

/-- The file system with nothing in it beyond `/`, `.` and `..`. -/
def FS.empty : FS := fun _ => none

/-- The file system with `p` naming `n`. -/
def FS.set (fs : FS) (p : Path) (n : Node) : FS :=
  fun q => if q = p then some n else fs q

/-- Paths that always name a directory: `/`, `.`, `..`, `../..` and so on. -/
def Path.isBase (p : Path) : Bool :=
  p.rev.all (fun e => e == "..")

/-- The function `os.Stat`: what `p` names. -/
def Stat (fs : FS) (p : Path) : Option Node :=
  if p.isBase then some Node.dir else fs p

/-- Whether a proper ancestor of the path with elements `rev` is a regular
file (then `os.Stat` fails with ENOTDIR rather than ENOENT). -/
def underFile (fs : FS) (abs : Bool) : List String → Bool
  | [] => false
  | _ :: rest =>
    (match Stat fs ⟨abs, rest⟩ with
     | some (Node.file _) => true
     | _ => false) || underFile fs abs rest

/-- The test `os.IsNotExist(err)` on the error of `os.Stat(p)`. -/
def statNotExist (fs : FS) (p : Path) : Bool :=
  (Stat fs p).isNone && !underFile fs p.abs p.rev

/-- Model of `mymazda.FileExists` (package forestfish/mymazda): the path names
a regular file. The empty string names nothing. -/
def FileExists (fs : FS) : Option Path → Bool
  | none => false
  | some p =>
    match Stat fs p with
    | some (Node.file _) => true
    | _ => false

/-- Model of `mymazda.DirExists` (package forestfish/mymazda): the path names
a directory. -/
def DirExists (fs : FS) : Option Path → Bool
  | none => false
  | some p =>
    match Stat fs p with
    | some Node.dir => true
    | _ => false

/-- The function `os.MkdirAll` on the path with elements `rev`: succeed at once on an
existing directory, fail on a regular file, otherwise make the parent first
and then the directory itself. `bad q` says that `os.Mkdir(q)` fails for a
reason outside the model (permissions, full disk). -/
def mkdirAllRev (bad : Path → Bool) (abs : Bool) : List String → FS → Bool × FS
  | [], fs => (true, fs)
  | e :: rest, fs =>
    match Stat fs ⟨abs, e :: rest⟩ with
    | some Node.dir => (true, fs)
    | some (Node.file _) => (false, fs)
    | none =>
      match mkdirAllRev bad abs rest fs with
      | (false, fs1) => (false, fs1)
      | (true, fs1) =>
        if bad ⟨abs, e :: rest⟩ then (false, fs1)
        else (true, fs1.set ⟨abs, e :: rest⟩ Node.dir)

/-- The function `os.MkdirAll(p, perm)`: whether it succeeded, and the file system after. -/
def MkdirAll (bad : Path → Bool) (fs : FS) (p : Path) : Bool × FS :=
  mkdirAllRev bad p.abs p.rev fs

/-- The function `os.Create(p)`: fails on the empty string, on a directory, when the
parent is not a directory, or when `fail` is set (a reason outside the
model); otherwise `p` names an empty file afterwards, whether or not it named
a file before. Returns the open file, given by its path, and the file system
after. -/
def Create (fail : Bool) (fs : FS) : Option Path → Option (Path × FS)
  | none => none
  | some p =>
    if fail then none
    else
      match Stat fs p with
      | some Node.dir => none
      | _ =>
        match Stat fs ⟨p.abs, p.rev.tail⟩ with
        | some Node.dir => some (p, fs.set p (Node.file ""))
        | _ => none

/-- Writing `data` to the open file `p`, just created (`io.WriteString`,
`io.Copy`). `fail = some n` is a failure after `n` characters reached the
file. Returns whether the write succeeded and the file system after. -/
def WriteAll (fail : Option Nat) (fs : FS) (p : Path) (data : String) : Bool × FS :=
  match fail with
  | some n => (false, fs.set p (Node.file (String.mk (data.data.take n))))
  | none => (true, fs.set p (Node.file data))

/-- The walk of the operating system along the elements of a path string,
starting in the directory `p`. Every element, also an empty one, `.` or `..`,
is looked up in a directory that must exist, and `..` leads to the parent.
Without symbolic links one step is the step of `filepath.Clean`; the walk
differs from cleaning in that it fails where a directory on the way is
missing or is a regular file (ENOENT, ENOTDIR). The last path reached need
not exist. -/
def walk (fs : FS) : Path → List String → Option Path
  | p, [] => some p
  | p, e :: rest =>
    match Stat fs p with
    | some Node.dir => walk fs (pushElem p e) rest
    | _ => none

/-- How the operating system resolves a path string the program did not
clean: the empty string names nothing; any other string is walked element by
element from `/` or from the working directory. `none` is a failed
resolution. -/
def lookupPath (fs : FS) (s : String) : Option Path :=
  if s = "" then none else walk fs ⟨rooted s, []⟩ (elems s)

/-- The function `os.ReadFile` on an arbitrary path string. -/
def ReadFile (fs : FS) (s : String) : Option String :=
  match lookupPath fs s with
  | none => none
  | some p =>
    match Stat fs p with
    | some (Node.file data) => some data
    | _ => none

/-! ## golang.org/x/tools/txtar -/

/-- One file of a txtar archive. -/
structure File where
  Name : String
  Data : String
  deriving DecidableEq

/-- A parsed txtar archive. -/
structure Archive where
  Comment : String
  Files : List File
  deriving DecidableEq

/-- The function `unicode.IsSpace`. -/
def isSpace (c : Char) : Bool :=
  c = ' ' || c = '\t' || c = '\n' || c = '\r' || c.val = 0x0B || c.val = 0x0C
    || c.val = 0x85 || c.val = 0xA0 || c.val = 0x1680
    || (0x2000 ≤ c.val && c.val ≤ 0x200A)
    || c.val = 0x2028 || c.val = 0x2029 || c.val = 0x202F || c.val = 0x205F
    || c.val = 0x3000

/-- The function `strings.TrimSpace`. -/
def trimSpace (l : List Char) : List Char :=
  ((l.dropWhile isSpace).reverse.dropWhile isSpace).reverse

/-- The marker `"-- "` that starts a header line; read backwards it is the
`" --"` that ends one. -/
def marker : List Char := ['-', '-', ' ']

/-- The function `isMarker` of txtar: whether `data` begins with a marker
line `-- name --`. Returns the trimmed name and the data after the line;
the name is empty when there is no marker. -/
def isMarker (data : List Char) : String × List Char :=
  if data.take 3 = marker then
    let line := data.takeWhile (fun c => c ≠ '\n')
    let after := (data.dropWhile (fun c => c ≠ '\n')).tail
    if line.reverse.take 3 = marker ∧ 6 ≤ line.length then
      (String.mk (trimSpace ((line.drop 3).take (line.length - 6))), after)
    else ("", [])
  else ("", [])

/-- The function `fixNL` of txtar: add a final newline when it is missing. -/
def fixNL (data : List Char) : List Char :=
  match data.reverse with
  | [] => data
  | c :: _ => if c = '\n' then data else data ++ ['\n']

/-- The scan of `findFileMarker` past position 0: `acc` holds the characters
already passed, in reverse. A marker is looked for after every newline. -/
def findFileMarkerAux (acc : List Char) : List Char → List Char × String × List Char
  | [] => (fixNL acc.reverse, "", [])
  | c :: rest =>
    if c = '\n' then
      if (isMarker rest).1 ≠ "" then ((c :: acc).reverse, (isMarker rest).1, (isMarker rest).2)
      else findFileMarkerAux (c :: acc) rest
    else findFileMarkerAux (c :: acc) rest

/-- The function `findFileMarker` of txtar: the data before the next marker
line, the name in it, and the data after it; the name is empty when there is
no further marker. -/
def findFileMarker (data : List Char) : List Char × String × List Char :=
  if (isMarker data).1 ≠ "" then ([], (isMarker data).1, (isMarker data).2)
  else findFileMarkerAux [] data

/-- The loop of `txtar.Parse`: `name` is the name of the marker just read and
`data` what follows it. Every round consumes a marker line, so the length of
the input bounds the number of rounds. -/
def parseFiles : Nat → String → List Char → List File
  | 0, _, _ => []
  | fuel + 1, name, data =>
    if name = "" then []
    else
      ⟨name, String.mk (findFileMarker data).1⟩ ::
        parseFiles fuel (findFileMarker data).2.1 (findFileMarker data).2.2

/-- The function `txtar.Parse`: it has no error result. -/
def Parse (data : String) : Archive :=
  ⟨String.mk (findFileMarker data.data).1,
    parseFiles (data.data.length + 1) (findFileMarker data.data).2.1
      (findFileMarker data.data).2.2⟩

/-- The function `txtar.ParseFile`: read the file, then parse; the only failure is the
failure to read. -/
def ParseFile (fs : FS) (file : String) : Option Archive :=
  match ReadFile fs file with
  | none => none
  | some data => some (Parse data)

/-- A line is a marker line: `-- name --` with a name that is not blank. -/
def isHeaderLine (line : List Char) : Bool :=
  (isMarker line).1 ≠ ""

/-- The lines of a text, without their newlines. -/
def textLines : List Char → List (List Char)
  | [] => [[]]
  | c :: cs =>
    if c = '\n' then [] :: textLines cs
    else
      match textLines cs with
      | [] => [[c]]
      | h :: t => (c :: h) :: t

/-- The text has a section header line. -/
def hasHeaderLine (data : String) : Bool :=
  (textLines data.data).any isHeaderLine

/-! ## txtarTemplate.go -/

/-- The struct `TxtarTemplate`. -/
structure TxtarTemplate where
  RemoteURL : String
  LocalPathUnrendered : String
  LocalPathRendered : String
  deriving DecidableEq

/-- The variable `baseDir`; `tmp` is the value of `os.TempDir()`. -/
def baseDir (tmp : String) : String :=
  JoinStr tmp "coalfoot"

/-- The function `NewTxtarTemplate`. -/
def NewTxtarTemplate (tmp : String) : TxtarTemplate :=
  let fname := "1.txtar"
  let fnameRendered := "1-rendered.txt"
  let url := "https://raw.githubusercontent.com/taylormonacelli/navylie/master/templates/" ++ fname
  { RemoteURL := url
    LocalPathUnrendered := JoinStr (baseDir tmp) fname
    LocalPathRendered := JoinStr (baseDir tmp) fnameRendered }

/-- The errors `Extract` returns. -/
inductive ExtractErr where
  | parse
  | fileExists (p : Option Path)
  | dirExists (p : Option Path)
  | create (p : Option Path)
  | write (p : Option Path)
  deriving DecidableEq

/-- Failures from outside the model while one archive entry is written. -/
structure Fault where
  mkdir : Path → Bool
  create : Bool
  write : Option Nat

/-- Nothing fails for a reason outside the model. -/
def Fault.none : Fault := ⟨fun _ => false, false, Option.none⟩

/-- The first loop of `Extract` (lines 69-79): the error of the first entry
whose destination names a file or a directory, if any. Nothing is written. -/
def preflight (fs : FS) (extractToDir : String) : List File → Option ExtractErr
  | [] => none
  | file :: rest =>
    let filePath := Join extractToDir file.Name
    if FileExists fs filePath then some (ExtractErr.fileExists filePath)
    else if DirExists fs filePath then some (ExtractErr.dirExists filePath)
    else preflight fs extractToDir rest

/-- The body of the second loop of `Extract` (lines 82-99) for one entry.
The result of `os.MkdirAll` is ignored, as in the source. -/
def writeEntry (ft : Fault) (extractToDir : String) (file : File) (fs : FS) :
    Option ExtractErr × FS :=
  let filePath := Join extractToDir file.Name
  let d := DirClean filePath
  let fs1 := (MkdirAll ft.mkdir fs d).2
  match Create ft.create fs1 filePath with
  | none => (some (ExtractErr.create filePath), fs1)
  | some (f, fs2) =>
    match WriteAll ft.write fs2 f file.Data with
    | (false, fs3) => (some (ExtractErr.write filePath), fs3)
    | (true, fs3) => (none, fs3)

/-- The second loop of `Extract` (lines 81-100), from entry number `i` on:
it stops at the first entry that fails. -/
def writeEntries (faults : Nat → Fault) (extractToDir : String) :
    Nat → List File → FS → Option ExtractErr × FS
  | _, [], fs => (none, fs)
  | i, file :: rest, fs =>
    match writeEntry (faults i) extractToDir file fs with
    | (some e, fs1) => (some e, fs1)
    | (none, fs1) => writeEntries faults extractToDir (i + 1) rest fs1

/-- The method `Extract` after parsing: the pre-flight loop, then the write loop. -/
def extractFiles (faults : Nat → Fault) (extractToDir : String) (files : List File)
    (fs : FS) : Option ExtractErr × FS :=
  match preflight fs extractToDir files with
  | some e => (some e, fs)
  | none => writeEntries faults extractToDir 0 files fs

/-- The method `TxtarTemplate.Extract`: the error returned (`none` for nil)
and the file system after the call. -/
def Extract (faults : Nat → Fault) (tpl : TxtarTemplate) (extractToDir : String)
    (fs : FS) : Option ExtractErr × FS :=
  match ParseFile fs tpl.LocalPathRendered with
  | none => (some ExtractErr.parse, fs)
  | some archive => extractFiles faults extractToDir archive.Files fs

/-- The method `RemotePath`. -/
def RemotePath (tpl : TxtarTemplate) : String :=
  tpl.RemoteURL

/-- The method `GetRenderedTemplateDir`. -/
def GetRenderedTemplateDir (tpl : TxtarTemplate) : Path :=
  Dir tpl.LocalPathRendered

/-- The method `GetUnRenderedTemplateDir`. -/
def GetUnRenderedTemplateDir (tpl : TxtarTemplate) : Path :=
  Dir tpl.LocalPathUnrendered

/-! ### Fetching -/

/-- The state the fetch functions act on: the file system, and two counters
that record how many network GETs were issued and how many times
`FetchRemoteToLocal` was called. -/
structure World where
  fs : FS
  gets : Nat
  fetches : Nat

/-- What the fetch functions read from outside: the wall clock and the
modification times `os.Stat` reports (in nanoseconds; `none` when `os.Stat`
fails), whether `filepath.Abs` fails, which `os.Mkdir` calls fail, the answer
to the GET with a given number (`none` when the request fails), whether
`os.Create` fails and whether `io.Copy` fails after some characters. -/
structure Env where
  now : Int
  modTime : String → Option Int
  absFails : Bool
  mkdirBad : Path → Bool
  httpGet : Nat → String → Option String
  createFails : Bool
  copyFails : Option Nat

/-- The errors of the fetch functions. -/
inductive FetchErr where
  | abs
  | mkdir
  | get
  | create
  | copy
  deriving DecidableEq

/-- The function `fetchTemplateToPath`: the error returned (`none` for nil)
and the state after. -/
def fetchTemplateToPath (env : Env) (url localPath : String) (w : World) :
    Option FetchErr × World :=
  let directory := Dir localPath
  match MkdirAll env.mkdirBad w.fs directory with
  | (false, fs1) => (some FetchErr.mkdir, { w with fs := fs1 })
  | (true, fs1) =>
    let fileName := JoinClean directory (Base url)
    if !statNotExist fs1 fileName then (none, { w with fs := fs1 })
    else
      match env.httpGet w.gets url with
      | none => (some FetchErr.get, { w with fs := fs1, gets := w.gets + 1 })
      | some body =>
        match Create env.createFails fs1 (some fileName) with
        | none => (some FetchErr.create, { w with fs := fs1, gets := w.gets + 1 })
        | some (file, fs2) =>
          match WriteAll env.copyFails fs2 file body with
          | (false, fs3) => (some FetchErr.copy, { w with fs := fs3, gets := w.gets + 1 })
          | (true, fs3) => (none, { w with fs := fs3, gets := w.gets + 1 })

/-- The method `FetchRemoteToLocal`. `filepath.Abs` names the same directory
as its argument. The error of `fetchTemplateToPath` is logged and dropped. -/
def FetchRemoteToLocal (env : Env) (tpl : TxtarTemplate) (w : World) :
    Option FetchErr × World :=
  let w0 : World := { w with fetches := w.fetches + 1 }
  if env.absFails then (some FetchErr.abs, w0)
  else
    let dir := Dir tpl.LocalPathUnrendered
    match MkdirAll env.mkdirBad w0.fs dir with
    | (false, fs1) => (some FetchErr.mkdir, { w0 with fs := fs1 })
    | (true, fs1) =>
      (none, (fetchTemplateToPath env tpl.RemoteURL tpl.LocalPathUnrendered
        { w0 with fs := fs1 }).2)

/-- The constant `time.Second`, in nanoseconds. -/
def Second : Int := 1000000000

/-- The constant `time.Hour`. -/
def Hour : Int := 3600 * Second

/-- The smallest `time.Duration`, -2^63 nanoseconds. -/
def minDuration : Int := -9223372036854775808

/-- The largest `time.Duration`, 2^63 - 1 nanoseconds. -/
def maxDuration : Int := 9223372036854775807

/-- The function `time.Time.Sub`: the difference of two instants as a `time.Duration`, a
signed 64-bit count of nanoseconds; it saturates. -/
def Sub (t u : Int) : Int :=
  if t - u < minDuration then minDuration
  else if maxDuration < t - u then maxDuration
  else t - u

/-- The function `time.Since`. -/
def Since (env : Env) (t : Int) : Int :=
  Sub env.now t

/-- The function `time.Duration.Truncate`: round toward zero to a multiple of `m`. -/
def Truncate (d m : Int) : Int :=
  if m ≤ 0 then d else d - d.tmod m

/-- The function `durationSinceFileCreated`. -/
def durationSinceFileCreated (env : Env) (filePath : String) : Int :=
  match env.modTime filePath with
  | none => 0
  | some modTime => Truncate (Since env modTime) Second

/-- The threshold of `FetchFromRemoteIfOld` (lines 49-50): first 24 hours,
then overwritten with 0 hours. -/
def threshold : Int :=
  let _unused := 24 * Hour
  0 * Hour

/-- The method `FetchFromRemoteIfOld`: the state after the call. -/
def FetchFromRemoteIfOld (env : Env) (tpl : TxtarTemplate) (w : World) : World :=
  if FileExists w.fs (lookupPath w.fs tpl.LocalPathUnrendered)
      && decide (durationSinceFileCreated env tpl.LocalPathUnrendered < threshold) then w
  else (FetchRemoteToLocal env tpl w).2

/-! ## Notions used to state the properties of `Extract` -/

/-- The content of the last entry of the archive whose destination is `p`. -/
def lastWithDest (extractToDir : String) : List File → Path → Option String
  | [], _ => none
  | file :: rest, p =>
    match lastWithDest extractToDir rest p with
    | some data => some data
    | none => if Join extractToDir file.Name = some p then some file.Data else none

/-- The content of the last entry of the archive whose name is `name`. -/
def lastWithName : List File → String → Option String
  | [], _ => none
  | file :: rest, name =>
    match lastWithName rest name with
    | some data => some data
    | none => if file.Name = name then some file.Data else none

/-- The name is a relative path without `..` elements. -/
def relativeNoDotDot (name : String) : Bool :=
  !rooted name && !(elems name).contains ".."

/-- No destination of the archive lies properly below another one. -/
def noDestBelowAnother (extractToDir : String) (files : List File) : Bool :=
  files.all fun f => files.all fun g =>
    match Join extractToDir f.Name, Join extractToDir g.Name with
    | some p, some q => decide (q.under p → q = p)
    | _, _ => true

/-- None of the destinations of the archive names anything. -/
def noDestExists (fs : FS) (extractToDir : String) (files : List File) : Bool :=
  files.all fun f =>
    match Join extractToDir f.Name with
    | some p => (Stat fs p).isNone
    | none => true

/-- Every file operation of the write loop succeeds, from entry number `i`
on: `os.MkdirAll`, `os.Create` and the write of the content, for every
entry. -/
def opsSucceed (faults : Nat → Fault) (extractToDir : String) : Nat → List File → FS → Bool
  | _, [], _ => true
  | i, file :: rest, fs =>
    let filePath := Join extractToDir file.Name
    let made := MkdirAll (faults i).mkdir fs (DirClean filePath)
    made.1 &&
      match Create (faults i).create made.2 filePath with
      | none => false
      | some (f, fs2) =>
        (WriteAll (faults i).write fs2 f file.Data).1 &&
          opsSucceed faults extractToDir (i + 1) rest
            (WriteAll (faults i).write fs2 f file.Data).2

/-! ## Example states -/

/-- The descriptor of `NewTxtarTemplate` when `os.TempDir()` is `/tmp`. -/
def tplTmp : TxtarTemplate := NewTxtarTemplate "/tmp"

/-- The cache directory `/tmp/coalfoot` with nothing in it. -/
def fsCache : FS :=
  (FS.empty.set ⟨true, ["tmp"]⟩ Node.dir).set ⟨true, ["coalfoot", "tmp"]⟩ Node.dir

/-- The cache directory holding a rendered archive with the given text. -/
def fsRendered (text : String) : FS :=
  fsCache.set ⟨true, ["1-rendered.txt", "coalfoot", "tmp"]⟩ (Node.file text)

/-- The archive of the round-trip example of the specification. -/
def helloWorld : String :=
  "-- a/b.txt --\nhello\n-- c.txt --\nworld\n"

/-- The output directory `/out` next to the cache directory, holding an older
`c.txt`. -/
def fsOutTaken (text : String) : FS :=
  ((fsRendered text).set ⟨true, ["out"]⟩ Node.dir).set ⟨true, ["c.txt", "out"]⟩
    (Node.file "old")

/-- An archive in which two different names, `a` and `./a`, have the same
destination. -/
def twoNames : String :=
  "-- a --\n1\n-- ./a --\n2\n"

/-- The failures of the environment in which the write of the content stops
after two characters, for every entry. -/
def writeStops : Nat → Fault :=
  fun _ => ⟨fun _ => false, false, some 2⟩

/-- The failures of the environment in which `os.Create` fails for the second
entry (number 1) and nothing else fails. -/
def secondCreateFails : Nat → Fault :=
  fun i => if i = 1 then ⟨fun _ => false, true, none⟩ else Fault.none

/-- The file at `path` carries a modification time one second or more later
than the current time. -/
def futureDated (env : Env) (path : String) : Bool :=
  match env.modTime path with
  | none => false
  | some modTime => decide (Second ≤ modTime - env.now)

/-- An environment in which nothing fails, every GET answers `body`, the
clock reads `now` and every file was modified at `modTime`. -/
def envAt (now modTime : Int) : Env :=
  { now := now
    modTime := fun _ => some modTime
    absFails := false
    mkdirBad := fun _ => false
    httpGet := fun _ _ => some "body"
    createFails := false
    copyFails := none }

/-- The cache directory holding an unrendered template downloaded earlier. -/
def fsFetched : FS :=
  fsCache.set ⟨true, ["1.txtar", "coalfoot", "tmp"]⟩ (Node.file "old")

/-- An environment in which nothing fails except the network: every GET
fails. -/
def envGetFails : Env :=
  { now := 0
    modTime := fun _ => none
    absFails := false
    mkdirBad := fun _ => false
    httpGet := fun _ _ => none
    createFails := false
    copyFails := none }

/-- A descriptor whose URL and local path have different last elements. -/
def tplOther : TxtarTemplate :=
  { RemoteURL := "https://example.com/other.txtar"
    LocalPathUnrendered := "/tmp/coalfoot/1.txtar"
    LocalPathRendered := "/tmp/coalfoot/1-rendered.txt" }

/-- The path under which `fetchTemplateToPath` stores the download (line
147): the last element of the URL inside the directory of `localPath`. -/
def fetchDest (url localPath : String) : Path :=
  JoinClean (Dir localPath) (Base url)

/-- An element a cleaned path can have: not empty, not `.`, without a
slash. -/
def plainElem (e : String) : Prop :=
  e.data ≠ [] ∧ e ≠ "." ∧ '/' ∉ e.data

/-- The normal form `filepath.Clean` produces: every element is plain, and a
`..` element occurs only at the start of a relative path, where only `..`
elements precede it. -/
def Path.normal (p : Path) : Prop :=
  ∀ pre e suf, p.rev = pre ++ e :: suf →
    plainElem e ∧ (e = ".." → p.abs = false ∧ ∀ d ∈ suf, d = "..")

/-- The file system is well formed: whatever exists lies in a directory. -/
def FS.wellFormed (fs : FS) : Prop :=
  ∀ p : Path, (Stat fs p).isSome = true → Stat fs ⟨p.abs, p.rev.tail⟩ = some Node.dir

/-! ## Lemmas: file system -/

theorem Stat_set_ne (fs : FS) (p q : Path) (n : Node) (h : q ≠ p) :
    Stat (fs.set p n) q = Stat fs q := by
  simp [Stat, FS.set, h]

theorem Stat_set_self (fs : FS) (p : Path) (n : Node) (h : p.isBase = false) :
    Stat (fs.set p n) p = some n := by
  simp [Stat, FS.set, h]

theorem Stat_set_of_none (fs : FS) (p q : Path) (n m : Node) (hp : Stat fs p = none)
    (hq : Stat fs q = some m) : Stat (fs.set p n) q = some m := by
  have hne : q ≠ p := by
    rintro rfl
    rw [hp] at hq
    cases hq
  rw [Stat_set_ne fs p q n hne, hq]

theorem mkdirAllRev_keeps (bad : Path → Bool) (abs : Bool) (rev : List String) (fs : FS)
    (q : Path) (m : Node) (hq : Stat fs q = some m) :
    Stat (mkdirAllRev bad abs rev fs).2 q = some m := by
  induction rev with
  | nil => simpa [mkdirAllRev] using hq
  | cons e rest ih =>
    unfold mkdirAllRev
    split
    · exact hq
    · exact hq
    · rename_i hnone
      split
      · rename_i fs1 h1
        rw [h1] at ih
        exact ih
      · rename_i fs1 h1
        rw [h1] at ih
        split
        · exact ih
        · show Stat (fs1.set ⟨abs, e :: rest⟩ Node.dir) q = some m
          have hne : q ≠ ⟨abs, e :: rest⟩ := by
            rintro rfl
            rw [hnone] at hq
            cases hq
          rw [Stat_set_ne _ _ _ _ hne]
          exact ih

theorem MkdirAll_keeps (bad : Path → Bool) (fs : FS) (p q : Path) (m : Node)
    (hq : Stat fs q = some m) : Stat (MkdirAll bad fs p).2 q = some m :=
  mkdirAllRev_keeps bad p.abs p.rev fs q m hq

theorem Create_some (fail : Bool) (fs fs2 : FS) (jp : Option Path) (f : Path)
    (h : Create fail fs jp = some (f, fs2)) :
    jp = some f ∧ fs2 = fs.set f (Node.file "") ∧ f.isBase = false := by
  cases jp with
  | none => simp [Create] at h
  | some p =>
    simp only [Create] at h
    split at h
    · cases h
    · split at h
      · cases h
      · rename_i hnd
        split at h
        · simp only [Option.some.injEq, Prod.mk.injEq] at h
          obtain ⟨rfl, rfl⟩ := h
          refine ⟨rfl, rfl, ?_⟩
          cases hb : p.isBase
          · rfl
          · exfalso
            apply hnd
            simp [Stat, hb]
        · cases h

theorem WriteAll_fs (fail : Option Nat) (fs : FS) (f : Path) (data : String) :
    ∃ x, (WriteAll fail fs f data).2 = fs.set f (Node.file x) := by
  cases fail with
  | none => exact ⟨data, rfl⟩
  | some n => exact ⟨_, rfl⟩

theorem writeEntry_keeps (ft : Fault) (D : String) (file : File) (fs : FS) (q : Path)
    (m : Node) (hq : Stat fs q = some m) (hne : Join D file.Name ≠ some q) :
    Stat (writeEntry ft D file fs).2 q = some m := by
  have h1 : Stat (MkdirAll ft.mkdir fs (DirClean (Join D file.Name))).2 q = some m :=
    MkdirAll_keeps _ _ _ _ _ hq
  simp only [writeEntry]
  split
  · exact h1
  · rename_i f fs2 hc
    obtain ⟨hj, rfl, _⟩ := Create_some _ _ _ _ _ hc
    have hfq : q ≠ f := by
      rintro rfl
      exact hne hj
    obtain ⟨x, hx⟩ := WriteAll_fs ft.write
      ((MkdirAll ft.mkdir fs (DirClean (Join D file.Name))).2.set f (Node.file "")) f file.Data
    split
    · rename_i fs3 hw
      rw [hw] at hx
      simp only at hx
      subst hx
      rw [Stat_set_ne _ _ _ _ hfq, Stat_set_ne _ _ _ _ hfq]
      exact h1
    · rename_i fs3 hw
      rw [hw] at hx
      simp only at hx
      subst hx
      rw [Stat_set_ne _ _ _ _ hfq, Stat_set_ne _ _ _ _ hfq]
      exact h1

theorem writeEntries_keeps (faults : Nat → Fault) (D : String) (files : List File) :
    ∀ (i : Nat) (fs : FS) (q : Path) (m : Node), Stat fs q = some m →
      (∀ f ∈ files, Join D f.Name ≠ some q) →
      Stat (writeEntries faults D i files fs).2 q = some m := by
  induction files with
  | nil =>
    intro i fs q m hq _
    simpa [writeEntries] using hq
  | cons file rest ih =>
    intro i fs q m hq hne
    have h1 := writeEntry_keeps (faults i) D file fs q m hq (hne file (List.mem_cons_self _ _))
    simp only [writeEntries]
    split
    · rename_i e fs1 he
      rw [he] at h1
      exact h1
    · rename_i fs1 he
      rw [he] at h1
      exact ih (i + 1) fs1 q m h1 (fun f hf => hne f (List.mem_cons_of_mem _ hf))

theorem preflight_none (fs : FS) (D : String) (files : List File)
    (h : preflight fs D files = none) :
    ∀ f ∈ files, ∀ p, Join D f.Name = some p → Stat fs p = none := by
  induction files with
  | nil => intro f hf; cases hf
  | cons file rest ih =>
    simp only [preflight] at h
    split at h
    · cases h
    · rename_i hfe
      split at h
      · cases h
      · rename_i hde
        intro f hf p hp
        rcases List.mem_cons.mp hf with rfl | hf
        · rw [hp] at hfe hde
          simp only [FileExists, DirExists] at hfe hde
          cases hs : Stat fs p with
          | none => rfl
          | some n =>
            cases n with
            | file x => simp [hs] at hfe
            | dir => simp [hs] at hde
        · exact ih h f hf p hp

theorem preflight_some (fs : FS) (D : String) (files : List File) (f : File)
    (hf : f ∈ files) (p : Path) (hp : Join D f.Name = some p) (n : Node)
    (hn : Stat fs p = some n) : preflight fs D files ≠ none := by
  intro h
  have := preflight_none fs D files h f hf p hp
  rw [hn] at this
  cases this

/-! ## Extract: pre-flight check and frame -/

/-- C1: pre-flight atomicity. When the rendered archive parses and the
destination `filepath.Join(extractToDir, file.Name)` of at least one of its
entries already names a file or a directory, `Extract` returns a non-nil error
and the file system after the call is the file system before it, whatever
failures the environment would have produced. -/
theorem Extract_preflight_atomic (faults : Nat → Fault) (tpl : TxtarTemplate)
    (extractToDir : String) (fs : FS) (archive : Archive)
    (hparse : ParseFile fs tpl.LocalPathRendered = some archive)
    (file : File) (hmem : file ∈ archive.Files) (p : Path)
    (hjoin : Join extractToDir file.Name = some p) (n : Node) (hex : Stat fs p = some n) :
    (Extract faults tpl extractToDir fs).1 ≠ none ∧
      (Extract faults tpl extractToDir fs).2 = fs := by
  have hpre := preflight_some fs extractToDir archive.Files file hmem p hjoin n hex
  simp only [Extract, hparse, extractFiles]
  split
  · exact ⟨by simp, rfl⟩
  · rename_i h
    exact absurd h hpre

/-- C1, at an instance: the archive of the round-trip example is extracted
into `/out`, where `c.txt` exists already. -/
theorem Extract_preflight_atomic_witness :
    (Extract (fun _ => Fault.none) tplTmp "/out" (fsOutTaken helloWorld)).1 ≠ none ∧
      (Extract (fun _ => Fault.none) tplTmp "/out" (fsOutTaken helloWorld)).2
        = fsOutTaken helloWorld :=
  Extract_preflight_atomic (fun _ => Fault.none) tplTmp "/out" (fsOutTaken helloWorld)
    (Parse helloWorld) (by decide) ⟨"c.txt", "world\n"⟩ (by decide)
    ⟨true, ["c.txt", "out"]⟩ (by decide) (Node.file "old") (by decide)

/-- C2: `Extract` never overwrites. Whatever the archive, the destination
directory, the file system and the failures of the environment, and whether
`Extract` returns nil or an error: a path that named a file before the call
names a file with the same content after it, and a path that named a
directory still names a directory. -/
theorem Extract_keeps_existing (faults : Nat → Fault) (tpl : TxtarTemplate)
    (extractToDir : String) (fs : FS) (q : Path) (m : Node) (hq : Stat fs q = some m) :
    Stat (Extract faults tpl extractToDir fs).2 q = some m := by
  simp only [Extract]
  split
  · exact hq
  · rename_i archive _
    simp only [extractFiles]
    split
    · exact hq
    · rename_i hpre
      apply writeEntries_keeps faults extractToDir archive.Files 0 fs q m hq
      intro f hf hj
      have := preflight_none fs extractToDir archive.Files hpre f hf q hj
      rw [hq] at this
      cases this

/-- C2, at an instance: an archive with the names `a` and `a/b` is extracted
into the cache directory; the rendered archive itself is still there. -/
theorem Extract_keeps_existing_witness :
    Stat (Extract (fun _ => Fault.none) tplTmp "/tmp/coalfoot"
        (fsRendered "-- a --\nx\n-- a/b --\ny\n")).2
      ⟨true, ["1-rendered.txt", "coalfoot", "tmp"]⟩
      = some (Node.file "-- a --\nx\n-- a/b --\ny\n") :=
  Extract_keeps_existing (fun _ => Fault.none) tplTmp "/tmp/coalfoot"
    (fsRendered "-- a --\nx\n-- a/b --\ny\n") ⟨true, ["1-rendered.txt", "coalfoot", "tmp"]⟩
    (Node.file "-- a --\nx\n-- a/b --\ny\n") (by decide)

/-! ## Extract: what the write loop leaves behind -/

theorem mkdirAllRev_change (bad : Path → Bool) (abs : Bool) (rev : List String) (fs : FS)
    (q : Path) :
    Stat (mkdirAllRev bad abs rev fs).2 q = Stat fs q ∨
      (Stat fs q = none ∧ Stat (mkdirAllRev bad abs rev fs).2 q = some Node.dir ∧
        q.abs = abs ∧ q.rev <:+ rev) := by
  induction rev with
  | nil => left; rfl
  | cons e rest ih =>
    unfold mkdirAllRev
    split
    · left; rfl
    · left; rfl
    · rename_i hnone
      split
      · rename_i fs1 h1
        rw [h1] at ih
        rcases ih with ih | ⟨h0, hd, ha, hs⟩
        · left; exact ih
        · right; exact ⟨h0, hd, ha, hs.trans (List.suffix_cons e rest)⟩
      · rename_i fs1 h1
        rw [h1] at ih
        split
        · rcases ih with ih | ⟨h0, hd, ha, hs⟩
          · left; exact ih
          · right; exact ⟨h0, hd, ha, hs.trans (List.suffix_cons e rest)⟩
        · show Stat (fs1.set ⟨abs, e :: rest⟩ Node.dir) q = Stat fs q ∨ _
          by_cases hqk : q = ⟨abs, e :: rest⟩
          · subst hqk
            right
            have hb : Path.isBase ⟨abs, e :: rest⟩ = false := by
              cases hb : Path.isBase ⟨abs, e :: rest⟩
              · rfl
              · simp [Stat, hb] at hnone
            exact ⟨hnone, Stat_set_self _ _ _ hb, rfl, List.suffix_refl _⟩
          · rw [Stat_set_ne _ _ _ _ hqk]
            rcases ih with ih | ⟨h0, hd, ha, hs⟩
            · left; exact ih
            · right
              exact ⟨h0, hd, ha, hs.trans (List.suffix_cons e rest)⟩

theorem MkdirAll_file (bad : Path → Bool) (fs : FS) (p q : Path) (x : String)
    (h : Stat (MkdirAll bad fs p).2 q = some (Node.file x)) :
    Stat fs q = some (Node.file x) := by
  rcases mkdirAllRev_change bad p.abs p.rev fs q with h1 | ⟨_, hd, _, _⟩
  · rw [← h1]; exact h
  · rw [MkdirAll, hd] at h
    cases h

theorem writeEntry_none (ft : Fault) (D : String) (file : File) (fs fs1 : FS)
    (h : writeEntry ft D file fs = (none, fs1)) :
    ∃ f, Join D file.Name = some f ∧ Stat fs1 f = some (Node.file file.Data) := by
  simp only [writeEntry] at h
  split at h
  · cases h
  · rename_i f fs2 hc
    obtain ⟨hj, rfl, hb⟩ := Create_some _ _ _ _ _ hc
    split at h
    · cases h
    · rename_i fs3 hw
      simp only [Prod.mk.injEq, true_and] at h
      subst h
      refine ⟨f, hj, ?_⟩
      cases hft : ft.write with
      | none =>
        rw [hft] at hw
        simp only [WriteAll, Prod.mk.injEq, true_and] at hw
        subst hw
        exact Stat_set_self _ _ _ hb
      | some n =>
        rw [hft] at hw
        simp [WriteAll] at hw

theorem writeEntry_file (ft : Fault) (D : String) (file : File) (fs : FS) (q : Path)
    (x : String) (h : Stat (writeEntry ft D file fs).2 q = some (Node.file x)) :
    Stat fs q = some (Node.file x) ∨ Join D file.Name = some q := by
  by_cases hj : Join D file.Name = some q
  · right; exact hj
  · left
    simp only [writeEntry] at h
    split at h
    · exact MkdirAll_file _ _ _ _ _ h
    · rename_i f fs2 hc
      obtain ⟨hjf, rfl, _⟩ := Create_some _ _ _ _ _ hc
      have hfq : q ≠ f := by
        rintro rfl
        exact hj hjf
      obtain ⟨y, hy⟩ := WriteAll_fs ft.write
        ((MkdirAll ft.mkdir fs (DirClean (Join D file.Name))).2.set f (Node.file "")) f file.Data
      split at h
      · rename_i fs3 hw
        rw [hw] at hy
        simp only at hy
        subst hy
        rw [Stat_set_ne _ _ _ _ hfq, Stat_set_ne _ _ _ _ hfq] at h
        exact MkdirAll_file _ _ _ _ _ h
      · rename_i fs3 hw
        rw [hw] at hy
        simp only at hy
        subst hy
        rw [Stat_set_ne _ _ _ _ hfq, Stat_set_ne _ _ _ _ hfq] at h
        exact MkdirAll_file _ _ _ _ _ h

theorem writeEntries_file (faults : Nat → Fault) (D : String) (files : List File) :
    ∀ (i : Nat) (fs : FS) (q : Path) (x : String),
      Stat (writeEntries faults D i files fs).2 q = some (Node.file x) →
      Stat fs q = some (Node.file x) ∨ ∃ f ∈ files, Join D f.Name = some q := by
  induction files with
  | nil =>
    intro i fs q x h
    left
    simpa [writeEntries] using h
  | cons file rest ih =>
    intro i fs q x h
    simp only [writeEntries] at h
    have key : ∀ fs1, (writeEntry (faults i) D file fs).2 = fs1 →
        Stat fs1 q = some (Node.file x) →
        Stat fs q = some (Node.file x) ∨ ∃ f ∈ file :: rest, Join D f.Name = some q := by
      intro fs1 h1 h2
      subst h1
      rcases writeEntry_file _ _ _ _ _ _ h2 with h3 | h3
      · left; exact h3
      · right; exact ⟨file, List.mem_cons_self _ _, h3⟩
    split at h
    · rename_i e fs1 he
      exact key fs1 (by rw [he]) h
    · rename_i fs1 he
      rcases ih (i + 1) fs1 q x h with h3 | ⟨f, hf, hjf⟩
      · exact key fs1 (by rw [he]) h3
      · right; exact ⟨f, List.mem_cons_of_mem _ hf, hjf⟩

theorem lastWithDest_none (D : String) (files : List File) (p : Path)
    (h : lastWithDest D files p = none) : ∀ f ∈ files, Join D f.Name ≠ some p := by
  induction files with
  | nil => intro f hf; cases hf
  | cons file rest ih =>
    simp only [lastWithDest] at h
    split at h
    · cases h
    · rename_i hr
      split at h
      · cases h
      · rename_i hj
        intro f hf
        rcases List.mem_cons.mp hf with rfl | hf
        · exact hj
        · exact ih hr f hf

theorem lastWithDest_some_of_mem (D : String) (files : List File) (p : Path) (f : File)
    (hf : f ∈ files) (hj : Join D f.Name = some p) :
    ∃ data, lastWithDest D files p = some data := by
  cases h : lastWithDest D files p with
  | some data => exact ⟨data, rfl⟩
  | none => exact absurd hj (lastWithDest_none D files p h f hf)

theorem writeEntries_last (faults : Nat → Fault) (D : String) (files : List File) :
    ∀ (i : Nat) (fs fs1 : FS), writeEntries faults D i files fs = (none, fs1) →
      ∀ (p : Path) (data : String), lastWithDest D files p = some data →
        Stat fs1 p = some (Node.file data) := by
  induction files with
  | nil =>
    intro i fs fs1 _ p data h
    simp [lastWithDest] at h
  | cons file rest ih =>
    intro i fs fs1 hrun p data h
    simp only [writeEntries] at hrun
    split at hrun
    · cases hrun
    · rename_i fs2 he
      simp only [lastWithDest] at h
      split at h
      · rename_i d hr
        simp only [Option.some.injEq] at h
        subst h
        exact ih (i + 1) fs2 fs1 hrun p d hr
      · rename_i hr
        split at h
        · rename_i hj
          simp only [Option.some.injEq] at h
          subst h
          obtain ⟨f, hjf, hst⟩ := writeEntry_none _ _ _ _ _ he
          rw [hj] at hjf
          cases hjf
          have := writeEntries_keeps faults D rest (i + 1) fs2 p (Node.file file.Data) hst
            (lastWithDest_none D rest p hr)
          rw [hrun] at this
          exact this
        · cases h

theorem opsSucceed_run (faults : Nat → Fault) (D : String) (files : List File) :
    ∀ (i : Nat) (fs : FS), opsSucceed faults D i files fs = true →
      (writeEntries faults D i files fs).1 = none := by
  induction files with
  | nil => intro i fs _; rfl
  | cons file rest ih =>
    intro i fs h
    simp only [opsSucceed, Bool.and_eq_true] at h
    obtain ⟨_, h2⟩ := h
    simp only [writeEntries, writeEntry]
    split at h2
    · cases h2
    · rename_i f fs2 hc
      simp only [Bool.and_eq_true] at h2
      obtain ⟨hw, hrest⟩ := h2
      cases hres : WriteAll (faults i).write fs2 f file.Data with
      | mk ok fs3 =>
        rw [hres] at hw hrest
        simp only at hw hrest
        subst hw
        simp only
        exact ih (i + 1) fs3 hrest

theorem noDestExists_preflight (fs : FS) (D : String) (files : List File)
    (h : noDestExists fs D files = true) : preflight fs D files = none := by
  induction files with
  | nil => rfl
  | cons file rest ih =>
    simp only [noDestExists, List.all_cons, Bool.and_eq_true] at h
    obtain ⟨h1, h2⟩ := h
    simp only [preflight]
    have hrest : preflight fs D rest = none := ih (by simpa [noDestExists] using h2)
    cases hj : Join D file.Name with
    | none => simp [FileExists, DirExists, hrest]
    | some p =>
      rw [hj] at h1
      simp only [Option.isNone_iff_eq_none] at h1
      simp [FileExists, DirExists, h1, hrest]

/-- C3, as stated, fails: the archive with the entries `a` and `./a` is
extracted into `/out`, which does not exist. Both names are relative and
without `..`, neither destination lies properly below the other, no
destination exists and every file operation succeeds; `Extract` returns nil.
The last entry named `a` holds `1`, but the file at
`filepath.Join("/out", "a")` holds `2`, the content of the entry `./a`. -/
theorem Extract_last_name_counterexample :
    ParseFile (fsRendered twoNames) tplTmp.LocalPathRendered
        = some ⟨"", [⟨"a", "1\n"⟩, ⟨"./a", "2\n"⟩]⟩ ∧
      relativeNoDotDot "a" = true ∧ relativeNoDotDot "./a" = true ∧
      noDestBelowAnother "/out" [⟨"a", "1\n"⟩, ⟨"./a", "2\n"⟩] = true ∧
      noDestExists (fsRendered twoNames) "/out" [⟨"a", "1\n"⟩, ⟨"./a", "2\n"⟩] = true ∧
      opsSucceed (fun _ => Fault.none) "/out" 0 [⟨"a", "1\n"⟩, ⟨"./a", "2\n"⟩]
        (fsRendered twoNames) = true ∧
      (Extract (fun _ => Fault.none) tplTmp "/out" (fsRendered twoNames)).1 = none ∧
      lastWithName [⟨"a", "1\n"⟩, ⟨"./a", "2\n"⟩] "a" = some "1\n" ∧
      Join "/out" "a" = some ⟨true, ["a", "out"]⟩ ∧
      Stat (Extract (fun _ => Fault.none) tplTmp "/out" (fsRendered twoNames)).2
        ⟨true, ["a", "out"]⟩ = some (Node.file "2\n") := by
  decide

/-- C3, amended: extraction round trip. When the rendered archive parses,
none of the destinations exists and every file operation of the write loop
succeeds, `Extract` returns nil; afterwards the destination of every entry
names a file whose content is the data of the last entry with that
destination (last write wins among entries whose names clean to the same
path); and every path that names a file afterwards either is the destination
of an entry or named a file with the same content before. The restrictions
of the claim on the names are not needed. -/
theorem Extract_round_trip (faults : Nat → Fault) (tpl : TxtarTemplate)
    (extractToDir : String) (fs : FS) (archive : Archive)
    (hparse : ParseFile fs tpl.LocalPathRendered = some archive)
    (hfree : noDestExists fs extractToDir archive.Files = true)
    (hops : opsSucceed faults extractToDir 0 archive.Files fs = true) :
    (Extract faults tpl extractToDir fs).1 = none ∧
      (∀ f ∈ archive.Files, ∀ p, Join extractToDir f.Name = some p →
        ∃ data, lastWithDest extractToDir archive.Files p = some data ∧
          Stat (Extract faults tpl extractToDir fs).2 p = some (Node.file data)) ∧
      (∀ q x, Stat (Extract faults tpl extractToDir fs).2 q = some (Node.file x) →
        Stat fs q = some (Node.file x) ∨
          ∃ f ∈ archive.Files, Join extractToDir f.Name = some q) := by
  have hpre := noDestExists_preflight fs extractToDir archive.Files hfree
  have hrun := opsSucceed_run faults extractToDir archive.Files 0 fs hops
  have hE : Extract faults tpl extractToDir fs
      = writeEntries faults extractToDir 0 archive.Files fs := by
    simp only [Extract, hparse, extractFiles, hpre]
  rw [hE]
  refine ⟨hrun, ?_, ?_⟩
  · intro f hf p hj
    obtain ⟨data, hd⟩ := lastWithDest_some_of_mem extractToDir archive.Files p f hf hj
    refine ⟨data, hd, ?_⟩
    exact writeEntries_last faults extractToDir archive.Files 0 fs _
      (Prod.ext hrun rfl) p data hd
  · intro q x h
    exact writeEntries_file faults extractToDir archive.Files 0 fs q x h

/-- C3, amended, at the example of the specification: the entries `a/b.txt`
and `c.txt` are extracted into `/out`; afterwards `/out/a/b.txt` holds the
data of the first entry and `/out/c.txt` the data of the second. -/
theorem Extract_round_trip_witness :
    Stat (Extract (fun _ => Fault.none) tplTmp "/out" (fsRendered helloWorld)).2
        ⟨true, ["b.txt", "a", "out"]⟩ = some (Node.file "hello\n") ∧
      Stat (Extract (fun _ => Fault.none) tplTmp "/out" (fsRendered helloWorld)).2
        ⟨true, ["c.txt", "out"]⟩ = some (Node.file "world\n") ∧
      (Extract (fun _ => Fault.none) tplTmp "/out" (fsRendered helloWorld)).1 = none ∧
      (∀ q x, Stat (Extract (fun _ => Fault.none) tplTmp "/out" (fsRendered helloWorld)).2 q
          = some (Node.file x) →
        Stat (fsRendered helloWorld) q = some (Node.file x) ∨
          ∃ f ∈ (Parse helloWorld).Files, Join "/out" f.Name = some q) := by
  have h := Extract_round_trip (fun _ => Fault.none) tplTmp "/out" (fsRendered helloWorld)
    (Parse helloWorld) (by decide) (by decide) (by decide)
  refine ⟨?_, ?_, h.1, h.2.2⟩
  · obtain ⟨data, hd, hs⟩ := h.2.1 ⟨"a/b.txt", "hello\n"⟩ (by decide)
      ⟨true, ["b.txt", "a", "out"]⟩ (by decide)
    have : data = "hello\n" := by
      have h2 : lastWithDest "/out" (Parse helloWorld).Files ⟨true, ["b.txt", "a", "out"]⟩
          = some "hello\n" := by decide
      rw [h2] at hd
      exact (Option.some.inj hd).symm
    rw [← this]
    exact hs
  · obtain ⟨data, hd, hs⟩ := h.2.1 ⟨"c.txt", "world\n"⟩ (by decide)
      ⟨true, ["c.txt", "out"]⟩ (by decide)
    have : data = "world\n" := by
      have h2 : lastWithDest "/out" (Parse helloWorld).Files ⟨true, ["c.txt", "out"]⟩
          = some "world\n" := by decide
      rw [h2] at hd
      exact (Option.some.inj hd).symm
    rw [← this]
    exact hs

/-! ## Extract: a failure in the write loop -/

theorem writeEntries_append (faults : Nat → Fault) (D : String) (pre rest : List File) :
    ∀ (i : Nat) (fs fs1 : FS), writeEntries faults D i pre fs = (none, fs1) →
      writeEntries faults D i (pre ++ rest) fs
        = writeEntries faults D (i + pre.length) rest fs1 := by
  induction pre with
  | nil =>
    intro i fs fs1 h
    simp only [writeEntries, Prod.mk.injEq, true_and] at h
    subst h
    simp
  | cons file pre ih =>
    intro i fs fs1 h
    simp only [writeEntries, List.cons_append] at h ⊢
    split at h
    · cases h
    · rename_i fs2 he
      have h2 := ih (i + 1) fs2 fs1 h
      have h3 : i + 1 + pre.length = i + (file :: pre).length := by
        simp only [List.length_cons]
        omega
      rw [h3] at h2
      exact h2

theorem writeEntries_none_dest (faults : Nat → Fault) (D : String) (files : List File) :
    ∀ (i : Nat) (fs fs1 : FS), writeEntries faults D i files fs = (none, fs1) →
      ∀ g ∈ files, ∃ p, Join D g.Name = some p := by
  induction files with
  | nil => intro i fs fs1 _ g hg; cases hg
  | cons file rest ih =>
    intro i fs fs1 h g hg
    simp only [writeEntries] at h
    split at h
    · cases h
    · rename_i fs2 he
      rcases List.mem_cons.mp hg with rfl | hg
      · obtain ⟨f, hj, _⟩ := writeEntry_none _ _ _ _ _ he
        exact ⟨f, hj⟩
      · exact ih (i + 1) fs2 fs1 h g hg

theorem lastWithDest_of_forall_ne (D : String) (files : List File) (p : Path)
    (h : ∀ f ∈ files, Join D f.Name ≠ some p) : lastWithDest D files p = none := by
  induction files with
  | nil => rfl
  | cons file rest ih =>
    simp only [lastWithDest]
    rw [ih (fun f hf => h f (List.mem_cons_of_mem _ hf))]
    simp [h file (List.mem_cons_self _ _)]

theorem lastWithDest_nodup (D : String) (files : List File)
    (hnd : (files.map (fun f => Join D f.Name)).Nodup) (g : File) (hg : g ∈ files)
    (p : Path) (hj : Join D g.Name = some p) : lastWithDest D files p = some g.Data := by
  induction files with
  | nil => cases hg
  | cons file rest ih =>
    simp only [List.map_cons, List.nodup_cons, List.mem_map, not_exists, not_and] at hnd
    obtain ⟨hnot, hrest⟩ := hnd
    simp only [lastWithDest]
    rcases List.mem_cons.mp hg with rfl | hg
    · have hnone : lastWithDest D rest p = none := by
        apply lastWithDest_of_forall_ne
        intro f hf hjf
        exact hnot f hf (by rw [hjf, hj])
      rw [hnone]
      simp [hj]
    · rw [ih hrest hg]

theorem writeEntry_create_err (ft : Fault) (D : String) (file : File) (fs fs1 : FS)
    (jp : Option Path) (h : writeEntry ft D file fs = (some (ExtractErr.create jp), fs1)) :
    fs1 = (MkdirAll ft.mkdir fs (DirClean (Join D file.Name))).2 := by
  simp only [writeEntry] at h
  split at h
  · simp only [Prod.mk.injEq] at h
    exact h.2.symm
  · split at h
    · simp at h
    · simp at h

theorem writeEntry_write_err (ft : Fault) (D : String) (file : File) (fs fs1 : FS)
    (jp : Option Path) (h : writeEntry ft D file fs = (some (ExtractErr.write jp), fs1)) :
    ∃ p n, Join D file.Name = some p ∧ ft.write = some n ∧
      Stat fs1 p = some (Node.file (String.mk (file.Data.data.take n))) := by
  simp only [writeEntry] at h
  split at h
  · simp at h
  · rename_i f fs2 hc
    obtain ⟨hj, rfl, hb⟩ := Create_some _ _ _ _ _ hc
    cases hft : ft.write with
    | none =>
      rw [hft] at h
      simp [WriteAll] at h
    | some n =>
      rw [hft] at h
      simp only [WriteAll, Prod.mk.injEq, Option.some.injEq, ExtractErr.write.injEq] at h
      obtain ⟨_, rfl⟩ := h
      exact ⟨f, n, hj, rfl, Stat_set_self _ _ _ hb⟩

theorem writeEntry_err_kind (ft : Fault) (D : String) (file : File) (fs fs1 : FS)
    (e : ExtractErr) (h : writeEntry ft D file fs = (some e, fs1)) :
    e = ExtractErr.create (Join D file.Name) ∨ e = ExtractErr.write (Join D file.Name) := by
  simp only [writeEntry] at h
  split at h
  · simp only [Prod.mk.injEq, Option.some.injEq] at h
    left; exact h.1.symm
  · split at h
    · simp only [Prod.mk.injEq, Option.some.injEq] at h
      right; exact h.1.symm
    · simp at h

/-- C5, as stated, fails: the archive with the single entry `a` is extracted
into `/out`; the pre-flight check passes, `os.Create` succeeds and the write
of the content stops after two characters. `Extract` returns the write error
of entry 1, and the destination file of entry 1 exists, holding `he`. -/
theorem Extract_write_failure_counterexample :
    ParseFile (fsRendered "-- a --\nhello\n") tplTmp.LocalPathRendered
        = some ⟨"", [⟨"a", "hello\n"⟩]⟩ ∧
      preflight (fsRendered "-- a --\nhello\n") "/out" [⟨"a", "hello\n"⟩] = none ∧
      Join "/out" "a" = some ⟨true, ["a", "out"]⟩ ∧
      (Extract writeStops tplTmp "/out" (fsRendered "-- a --\nhello\n")).1
        = some (ExtractErr.write (some ⟨true, ["a", "out"]⟩)) ∧
      Stat (Extract writeStops tplTmp "/out" (fsRendered "-- a --\nhello\n")).2
        ⟨true, ["a", "out"]⟩ = some (Node.file "he") := by
  decide

/-- C5, amended: partial-write semantics. Let the archive consist of the
entries `pre`, then `file`, then `post`, with pairwise distinct destinations,
and let it pass the pre-flight check. If the write loop succeeds on `pre` and
fails at `file`, then `Extract` returns that error, which is the error of
`os.Create` or of the write; the destinations of the entries of `pre` name
files with exactly their data; no destination of an entry of `post` names a
file; and the destination of `file` names no file when `os.Create` failed,
but names a file holding the characters written so far when the write
failed. -/
theorem Extract_partial_write (faults : Nat → Fault) (tpl : TxtarTemplate)
    (extractToDir : String) (fs : FS) (comment : String) (pre : List File) (file : File)
    (post : List File)
    (hparse : ParseFile fs tpl.LocalPathRendered = some ⟨comment, pre ++ file :: post⟩)
    (hnodup : ((pre ++ file :: post).map (fun f => Join extractToDir f.Name)).Nodup)
    (hpre : preflight fs extractToDir (pre ++ file :: post) = none)
    (fsk : FS) (hrun : writeEntries faults extractToDir 0 pre fs = (none, fsk))
    (e : ExtractErr) (fs1 : FS)
    (hfail : writeEntry (faults pre.length) extractToDir file fsk = (some e, fs1)) :
    Extract faults tpl extractToDir fs = (some e, fs1) ∧
      (e = ExtractErr.create (Join extractToDir file.Name) ∨
        e = ExtractErr.write (Join extractToDir file.Name)) ∧
      (∀ g ∈ pre, ∃ p, Join extractToDir g.Name = some p ∧
        Stat fs1 p = some (Node.file g.Data)) ∧
      (∀ g ∈ post, ∀ p, Join extractToDir g.Name = some p →
        ∀ x, Stat fs1 p ≠ some (Node.file x)) ∧
      (e = ExtractErr.create (Join extractToDir file.Name) →
        ∀ p, Join extractToDir file.Name = some p → ∀ x, Stat fs1 p ≠ some (Node.file x)) ∧
      (e = ExtractErr.write (Join extractToDir file.Name) →
        ∃ p n, Join extractToDir file.Name = some p ∧ (faults pre.length).write = some n ∧
          Stat fs1 p = some (Node.file (String.mk (file.Data.data.take n)))) := by
  have hE : Extract faults tpl extractToDir fs = (some e, fs1) := by
    simp only [Extract, hparse, extractFiles, hpre]
    rw [writeEntries_append faults extractToDir pre (file :: post) 0 fs fsk hrun]
    simp only [writeEntries, Nat.zero_add, hfail]
  have hfree := preflight_none fs extractToDir (pre ++ file :: post) hpre
  rw [List.map_append, List.map_cons, List.nodup_append] at hnodup
  obtain ⟨hndpre, hndrest, hdisj⟩ := hnodup
  rw [List.nodup_cons] at hndrest
  obtain ⟨hfilepost, _⟩ := hndrest
  have hpre_file : ∀ g ∈ pre, Join extractToDir g.Name ≠ Join extractToDir file.Name := by
    intro g hg heq
    exact hdisj (List.mem_map_of_mem _ hg) (by rw [heq]; exact List.mem_cons_self _ _)
  have hpre_post : ∀ g ∈ pre, ∀ h ∈ post,
      Join extractToDir g.Name ≠ Join extractToDir h.Name := by
    intro g hg h hh heq
    refine hdisj (List.mem_map_of_mem _ hg) ?_
    rw [heq]
    exact List.mem_cons_of_mem _ (List.mem_map_of_mem _ hh)
  have hpost_file : ∀ g ∈ post, Join extractToDir g.Name ≠ Join extractToDir file.Name := by
    intro g hg heq
    apply hfilepost
    rw [← heq]
    exact List.mem_map_of_mem _ hg
  -- a destination that named nothing before and is not written by `pre` names no file
  have hnofile : ∀ p, Stat fs p = none → (∀ g ∈ pre, Join extractToDir g.Name ≠ some p) →
      Join extractToDir file.Name ≠ some p → ∀ x, Stat fs1 p ≠ some (Node.file x) := by
    intro p hp hnp hnf x hx
    have h1 : Stat (writeEntry (faults pre.length) extractToDir file fsk).2 p
        = some (Node.file x) := by rw [hfail]; exact hx
    rcases writeEntry_file _ _ _ _ _ _ h1 with h2 | h2
    · have h3 : Stat (writeEntries faults extractToDir 0 pre fs).2 p = some (Node.file x) := by
        rw [hrun]; exact h2
      rcases writeEntries_file faults extractToDir pre 0 fs p x h3 with h4 | ⟨g, hg, hjg⟩
      · rw [hp] at h4; cases h4
      · exact hnp g hg hjg
    · exact hnf h2
  refine ⟨hE, writeEntry_err_kind _ _ _ _ _ _ hfail, ?_, ?_, ?_, ?_⟩
  · intro g hg
    obtain ⟨p, hj⟩ := writeEntries_none_dest faults extractToDir pre 0 fs fsk hrun g hg
    refine ⟨p, hj, ?_⟩
    have hlast := lastWithDest_nodup extractToDir pre hndpre g hg p hj
    have hk := writeEntries_last faults extractToDir pre 0 fs fsk hrun p g.Data hlast
    have hne : Join extractToDir file.Name ≠ some p := by
      rw [← hj]
      exact fun h => hpre_file g hg h.symm
    have := writeEntry_keeps (faults pre.length) extractToDir file fsk p (Node.file g.Data)
      hk hne
    rw [hfail] at this
    exact this
  · intro g hg p hj
    apply hnofile p
    · exact hfree g (List.mem_append_right _ (List.mem_cons_of_mem _ hg)) p hj
    · intro h hh heq
      exact hpre_post h hh g hg (by rw [heq, hj])
    · intro heq
      exact hpost_file g hg (by rw [heq, hj])
  · intro he p hj x hx
    subst he
    have hfs1 := writeEntry_create_err _ _ _ _ _ _ hfail
    rw [hfs1] at hx
    have h2 := MkdirAll_file _ _ _ _ _ hx
    have h3 : Stat (writeEntries faults extractToDir 0 pre fs).2 p = some (Node.file x) := by
      rw [hrun]; exact h2
    rcases writeEntries_file faults extractToDir pre 0 fs p x h3 with h4 | ⟨g, hg, hjg⟩
    · rw [hfree file (List.mem_append_right _ (List.mem_cons_self _ _)) p hj] at h4
      cases h4
    · exact hpre_file g hg (by rw [hjg, hj])
  · intro he
    subst he
    exact writeEntry_write_err _ _ _ _ _ _ hfail

/-- C5, amended, at an instance: the entries `a/b.txt` and `c.txt` are
extracted into `/out` and `os.Create` fails for the second one; `Extract`
returns that error, `/out/a/b.txt` holds the data of the first entry and
`/out/c.txt` names no file. -/
theorem Extract_partial_write_witness :
    Extract secondCreateFails tplTmp "/out" (fsRendered helloWorld)
        = (some (ExtractErr.create (some ⟨true, ["c.txt", "out"]⟩)),
            (writeEntry (secondCreateFails 1) "/out" ⟨"c.txt", "world\n"⟩
              (writeEntries secondCreateFails "/out" 0 [⟨"a/b.txt", "hello\n"⟩]
                (fsRendered helloWorld)).2).2) ∧
      Stat (writeEntry (secondCreateFails 1) "/out" ⟨"c.txt", "world\n"⟩
          (writeEntries secondCreateFails "/out" 0 [⟨"a/b.txt", "hello\n"⟩]
            (fsRendered helloWorld)).2).2 ⟨true, ["b.txt", "a", "out"]⟩
        = some (Node.file "hello\n") ∧
      (∀ x, Stat (writeEntry (secondCreateFails 1) "/out" ⟨"c.txt", "world\n"⟩
          (writeEntries secondCreateFails "/out" 0 [⟨"a/b.txt", "hello\n"⟩]
            (fsRendered helloWorld)).2).2 ⟨true, ["c.txt", "out"]⟩
        ≠ some (Node.file x)) := by
  have h := Extract_partial_write secondCreateFails tplTmp "/out" (fsRendered helloWorld)
    "" [⟨"a/b.txt", "hello\n"⟩] ⟨"c.txt", "world\n"⟩ [] (by decide) (by decide) (by decide)
    (writeEntries secondCreateFails "/out" 0 [⟨"a/b.txt", "hello\n"⟩]
      (fsRendered helloWorld)).2
    (Prod.ext (by decide) rfl)
    (ExtractErr.create (some ⟨true, ["c.txt", "out"]⟩))
    (writeEntry (secondCreateFails 1) "/out" ⟨"c.txt", "world\n"⟩
      (writeEntries secondCreateFails "/out" 0 [⟨"a/b.txt", "hello\n"⟩]
        (fsRendered helloWorld)).2).2
    (Prod.ext (by decide) rfl)
  refine ⟨h.1, ?_, ?_⟩
  · obtain ⟨p, hj, hs⟩ := h.2.2.1 ⟨"a/b.txt", "hello\n"⟩ (by decide)
    have hp : p = ⟨true, ["b.txt", "a", "out"]⟩ := by
      have h2 : Join "/out" "a/b.txt" = some ⟨true, ["b.txt", "a", "out"]⟩ := by decide
      rw [h2] at hj
      exact (Option.some.inj hj).symm
    rw [← hp]
    exact hs
  · exact h.2.2.2.2.1 (by decide) ⟨true, ["c.txt", "out"]⟩ (by decide)

/-! ## txtar: an archive without header lines has no files -/

theorem textLines_eq (l : List Char) :
    textLines l = l.takeWhile (fun c => c ≠ '\n') :: (textLines l).tail := by
  induction l with
  | nil => rfl
  | cons c cs ih =>
    by_cases hc : c = '\n'
    · simp [textLines, hc]
    · rw [textLines, if_neg hc, ih]
      simp [hc]

theorem textLines_tail_cons (c : Char) (cs : List Char) (hc : c ≠ '\n') :
    (textLines (c :: cs)).tail = (textLines cs).tail := by
  rw [textLines, if_neg hc, textLines_eq cs]
  rfl

theorem isMarker_line (data : List Char) :
    (isMarker data).1 = (isMarker (data.takeWhile (fun c => c ≠ '\n'))).1 := by
  by_cases h : data.take 3 = marker
  · have h2 : (data.takeWhile (fun c => c ≠ '\n')).take 3 = marker := by
      rcases data with _ | ⟨a, _ | ⟨b, _ | ⟨c, rest⟩⟩⟩
      · simp [marker] at h
      · simp [marker] at h
      · simp [marker] at h
      · simp only [marker, List.take_succ_cons, List.take_zero, List.cons.injEq, and_true] at h
        obtain ⟨rfl, rfl, rfl⟩ := h
        simp [marker, List.takeWhile]
    simp only [isMarker, h, h2, if_true, List.takeWhile_idem]
    split
    · rfl
    · rfl
  · have h2 : ¬ (data.takeWhile (fun c => c ≠ '\n')).take 3 = marker := by
      intro h3
      apply h
      rcases data with _ | ⟨a, _ | ⟨b, _ | ⟨c, rest⟩⟩⟩
      · simp [marker] at h3
      · simp only [List.takeWhile] at h3
        split at h3 <;> simp [marker] at h3
      · simp only [List.takeWhile] at h3
        split at h3
        · split at h3 <;> simp [marker] at h3
        · simp [marker] at h3
      · simp only [List.takeWhile] at h3
        split at h3
        · split at h3
          · split at h3
            · simpa [marker] using h3
            · simp [marker] at h3
          · simp [marker] at h3
        · simp [marker] at h3
    simp only [isMarker, h, h2, if_false]

theorem findFileMarkerAux_no_header (data : List Char) :
    ∀ acc : List Char, (∀ line ∈ (textLines data).tail, isHeaderLine line = false) →
      (findFileMarkerAux acc data).2.1 = "" := by
  induction data with
  | nil => intro acc _; rfl
  | cons c rest ih =>
    intro acc h
    by_cases hc : c = '\n'
    · subst hc
      have htail : (textLines ('\n' :: rest)).tail = textLines rest := by
        simp [textLines]
      rw [htail] at h
      have hfirst : (isMarker rest).1 = "" := by
        have hmem : rest.takeWhile (fun c => c ≠ '\n') ∈ textLines rest := by
          rw [textLines_eq rest]
          exact List.mem_cons_self _ _
        have := h _ hmem
        rw [isMarker_line]
        simpa [isHeaderLine] using this
      have hrest : ∀ line ∈ (textLines rest).tail, isHeaderLine line = false :=
        fun line hl => h line (List.mem_of_mem_tail hl)
      simp only [findFileMarkerAux, hfirst, if_true, ne_eq, not_true_eq_false, if_false]
      exact ih _ hrest
    · rw [textLines_tail_cons c rest hc] at h
      simp only [findFileMarkerAux, hc, if_false]
      exact ih _ h

theorem findFileMarker_no_header (data : String) (h : hasHeaderLine data = false) :
    (findFileMarker data.data).2.1 = "" := by
  have hall : ∀ line ∈ textLines data.data, isHeaderLine line = false := by
    intro line hl
    simp only [hasHeaderLine, List.any_eq_false] at h
    simpa using h line hl
  have hfirst : (isMarker data.data).1 = "" := by
    have hmem : data.data.takeWhile (fun c => c ≠ '\n') ∈ textLines data.data := by
      rw [textLines_eq data.data]
      exact List.mem_cons_self _ _
    have := hall _ hmem
    rw [isMarker_line]
    simpa [isHeaderLine] using this
  simp only [findFileMarker, hfirst, ne_eq, not_true_eq_false, if_false]
  exact findFileMarkerAux_no_header data.data [] (fun line hl => hall line (List.mem_of_mem_tail hl))

theorem Parse_no_header (data : String) (h : hasHeaderLine data = false) :
    (Parse data).Files = [] := by
  simp only [Parse, findFileMarker_no_header data h, parseFiles, if_true]

/-! ## Extract: the rendered archive is missing or has no header line -/

/-- C4, as stated, fails: the rendered archive holds the single line `hello`,
which is no header line. `txtar.Parse` has no error result: it returns an
archive without files, and `Extract` returns nil, not a parse error. -/
theorem Extract_no_header_counterexample :
    hasHeaderLine "hello\n" = false ∧
      ReadFile (fsRendered "hello\n") tplTmp.LocalPathRendered = some "hello\n" ∧
      (Extract (fun _ => Fault.none) tplTmp "/out" (fsRendered "hello\n")).1 = none := by
  decide

/-- C4, amended: when the rendered archive cannot be read (it is missing),
`Extract` returns the error of `txtar.ParseFile`; when it can be read and has
no header line, the archive has no files and `Extract` returns nil. In both
cases the file system after the call is the file system before it. -/
theorem Extract_without_header (faults : Nat → Fault) (tpl : TxtarTemplate)
    (extractToDir : String) (fs : FS)
    (h : ∀ data, ReadFile fs tpl.LocalPathRendered = some data → hasHeaderLine data = false) :
    Extract faults tpl extractToDir fs
      = (match ReadFile fs tpl.LocalPathRendered with
          | none => some ExtractErr.parse
          | some _ => none, fs) := by
  cases hr : ReadFile fs tpl.LocalPathRendered with
  | none => simp only [Extract, ParseFile, hr]
  | some data =>
    have hfiles := Parse_no_header data (h data hr)
    simp only [Extract, ParseFile, hr, extractFiles, hfiles, preflight, writeEntries]

/-- C4, amended, at an instance: the cache directory holds no rendered
archive; `Extract` returns the parse error and changes nothing. -/
theorem Extract_without_header_witness :
    Extract (fun _ => Fault.none) tplTmp "/out" fsCache = (some ExtractErr.parse, fsCache) := by
  have hr : ReadFile fsCache tplTmp.LocalPathRendered = none := by decide
  have h := Extract_without_header (fun _ => Fault.none) tplTmp "/out" fsCache
    (fun data hd => by rw [hr] at hd; cases hd)
  rw [hr] at h
  exact h

/-! ## Extract: where the destinations lie -/

theorem splitChars_ne_nil (l : List Char) : splitChars l ≠ [] := by
  cases l with
  | nil => simp [splitChars]
  | cons c cs =>
    rw [splitChars]
    split
    · simp
    · split <;> simp

theorem splitChars_append (a b : List Char) :
    splitChars (a ++ '/' :: b) = splitChars a ++ splitChars b := by
  induction a with
  | nil => simp [splitChars]
  | cons c cs ih =>
    by_cases hc : c = '/'
    · simp [splitChars, hc, ih]
    · rw [List.cons_append, splitChars, if_neg hc, ih, splitChars, if_neg hc]
      cases hs : splitChars cs with
      | nil => exact absurd hs (splitChars_ne_nil cs)
      | cons h t => rfl

theorem elems_join (a b : String) : elems (a ++ "/" ++ b) = elems a ++ elems b := by
  have h : (a ++ "/" ++ b).data = a.data ++ '/' :: b.data := by
    simp [String.data_append]
  rw [elems, h, splitChars_append, List.map_append]
  rfl

theorem rooted_join (a b : String) (ha : a ≠ "") : rooted (a ++ "/" ++ b) = rooted a := by
  have h : (a ++ "/" ++ b).data = a.data ++ '/' :: b.data := by
    simp [String.data_append]
  cases hd : a.data with
  | nil =>
    exfalso
    apply ha
    cases a
    simp only at hd
    subst hd
    rfl
  | cons c cs =>
    simp only [rooted, h, hd, List.cons_append]
    by_cases hc : c = '/'
    · subst hc; rfl
    · split <;> rename_i heq
      · simp only [List.cons.injEq] at heq
        exact absurd heq.1 hc
      · split <;> rename_i heq2
        · simp only [List.cons.injEq] at heq2
          exact absurd heq2.1 hc
        · rfl

/-- Joining onto a non-empty directory string is processing the name on top
of the cleaned directory. -/
theorem Join_eq_JoinClean (a b : String) (ha : a ≠ "") :
    Join a b = some (JoinClean (Clean a) b) := by
  simp only [Join, if_neg ha, Clean, JoinClean, elems_join, rooted_join a b ha,
    List.foldl_append]

theorem pushElem_under (p : Path) (e : String) (he : e ≠ "..") :
    (pushElem p e).under p := by
  unfold pushElem
  by_cases h1 : e = "" ∨ e = "."
  · rw [if_pos h1]
    exact ⟨rfl, List.suffix_refl _⟩
  · rw [if_neg h1, if_neg he]
    exact ⟨rfl, List.suffix_cons _ _⟩

theorem under_trans (p q r : Path) (h1 : p.under q) (h2 : q.under r) : p.under r :=
  ⟨h1.1.trans h2.1, h2.2.trans h1.2⟩

theorem foldl_pushElem_under (es : List String) :
    ∀ p : Path, ".." ∉ es → (es.foldl pushElem p).under p := by
  induction es with
  | nil => intro p _; exact ⟨rfl, List.suffix_refl _⟩
  | cons e rest ih =>
    intro p h
    simp only [List.mem_cons, not_or] at h
    simp only [List.foldl_cons]
    exact under_trans _ _ _ (ih (pushElem p e) h.2) (pushElem_under p e (Ne.symm h.1))

theorem Join_under (D name : String) (p : Path) (hdots : ".." ∉ elems name)
    (hrel : D ≠ "" ∨ rooted name = false) (hj : Join D name = some p) :
    p.under (Clean D) := by
  by_cases hD : D = ""
  · subst hD
    have hr : rooted name = false := by
      rcases hrel with h | h
      · exact absurd rfl h
      · exact h
    simp only [Join, if_true] at hj
    split at hj
    · cases hj
    · simp only [Option.some.injEq] at hj
      subst hj
      have hc : Clean "" = ⟨false, []⟩ := by decide
      rw [hc, Clean, hr]
      exact foldl_pushElem_under (elems name) ⟨false, []⟩ hdots
  · rw [Join_eq_JoinClean D name hD] at hj
    simp only [Option.some.injEq] at hj
    subst hj
    exact foldl_pushElem_under (elems name) (Clean D) hdots

theorem writeEntry_off_dest (ft : Fault) (D : String) (file : File) (fs : FS) (q : Path)
    (hne : Join D file.Name ≠ some q) :
    Stat (writeEntry ft D file fs).2 q
      = Stat (MkdirAll ft.mkdir fs (DirClean (Join D file.Name))).2 q := by
  simp only [writeEntry]
  split
  · rfl
  · rename_i f fs2 hc
    obtain ⟨hj, rfl, _⟩ := Create_some _ _ _ _ _ hc
    have hfq : q ≠ f := by
      rintro rfl
      exact hne hj
    obtain ⟨x, hx⟩ := WriteAll_fs ft.write
      ((MkdirAll ft.mkdir fs (DirClean (Join D file.Name))).2.set f (Node.file "")) f file.Data
    split
    · rename_i fs3 hw
      rw [hw] at hx
      simp only at hx
      subst hx
      rw [Stat_set_ne _ _ _ _ hfq, Stat_set_ne _ _ _ _ hfq]
    · rename_i fs3 hw
      rw [hw] at hx
      simp only at hx
      subst hx
      rw [Stat_set_ne _ _ _ _ hfq, Stat_set_ne _ _ _ _ hfq]

theorem writeEntry_change (ft : Fault) (D : String) (file : File) (fs : FS) (q : Path) :
    Stat (writeEntry ft D file fs).2 q = Stat fs q ∨ Join D file.Name = some q ∨
      (Stat fs q = none ∧ Stat (writeEntry ft D file fs).2 q = some Node.dir ∧
        ∃ p, Join D file.Name = some p ∧ p.under q) := by
  by_cases hj : Join D file.Name = some q
  · right; left; exact hj
  · rw [writeEntry_off_dest ft D file fs q hj]
    cases hjp : Join D file.Name with
    | none =>
      left
      simp [DirClean, MkdirAll, mkdirAllRev]
    | some p =>
      rcases mkdirAllRev_change ft.mkdir (DirClean (some p)).abs (DirClean (some p)).rev fs q
        with h | ⟨h0, hd, ha, hs⟩
      · left; exact h
      · right; right
        refine ⟨h0, hd, p, rfl, ?_, ?_⟩
        · exact ha.symm
        · exact hs.trans (List.tail_suffix p.rev)

theorem writeEntries_change (faults : Nat → Fault) (D : String) (files : List File) :
    ∀ (i : Nat) (fs : FS) (q : Path),
      Stat (writeEntries faults D i files fs).2 q = Stat fs q ∨
        (∃ f ∈ files, Join D f.Name = some q) ∨
        (Stat fs q = none ∧ Stat (writeEntries faults D i files fs).2 q = some Node.dir ∧
          ∃ f ∈ files, ∃ p, Join D f.Name = some p ∧ p.under q) := by
  induction files with
  | nil => intro i fs q; left; rfl
  | cons file rest ih =>
    intro i fs q
    have hstep := writeEntry_change (faults i) D file fs q
    have lift : Stat (writeEntry (faults i) D file fs).2 q = Stat fs q ∨
        (∃ f ∈ file :: rest, Join D f.Name = some q) ∨
        (Stat fs q = none ∧ Stat (writeEntry (faults i) D file fs).2 q = some Node.dir ∧
          ∃ f ∈ file :: rest, ∃ p, Join D f.Name = some p ∧ p.under q) := by
      rcases hstep with h | h | ⟨h0, hd, p, hp, hu⟩
      · left; exact h
      · right; left; exact ⟨file, List.mem_cons_self _ _, h⟩
      · right; right; exact ⟨h0, hd, file, List.mem_cons_self _ _, p, hp, hu⟩
    simp only [writeEntries]
    split
    · rename_i e fs1 he
      rw [he] at lift
      exact lift
    · rename_i fs1 he
      rw [he] at lift
      simp only at lift
      rcases ih (i + 1) fs1 q with h | ⟨f, hf, hjf⟩ | ⟨h0, hd, f, hf, p, hp, hu⟩
      · rw [h]; exact lift
      · right; left; exact ⟨f, List.mem_cons_of_mem _ hf, hjf⟩
      · rcases lift with h | h | ⟨_, hd1, _⟩
        · right; right
          rw [h] at h0
          exact ⟨h0, hd, f, List.mem_cons_of_mem _ hf, p, hp, hu⟩
        · right; left; exact h
        · rw [h0] at hd1
          cases hd1

/-- C6, as stated, fails: the archive with the single entry `../evil.txt` is
extracted into `/out`. Its destination is `/evil.txt`, which does not lie
under `/out`, and `Extract` creates that file and returns nil. -/
theorem Extract_escapes_counterexample :
    ParseFile (fsRendered "-- ../evil.txt --\nx\n") tplTmp.LocalPathRendered
        = some ⟨"", [⟨"../evil.txt", "x\n"⟩]⟩ ∧
      Join "/out" "../evil.txt" = some ⟨true, ["evil.txt"]⟩ ∧
      ¬ Path.under ⟨true, ["evil.txt"]⟩ (Clean "/out") ∧
      Stat (fsRendered "-- ../evil.txt --\nx\n") ⟨true, ["evil.txt"]⟩ = none ∧
      (Extract (fun _ => Fault.none) tplTmp "/out"
        (fsRendered "-- ../evil.txt --\nx\n")).1 = none ∧
      Stat (Extract (fun _ => Fault.none) tplTmp "/out"
        (fsRendered "-- ../evil.txt --\nx\n")).2 ⟨true, ["evil.txt"]⟩
        = some (Node.file "x\n") := by
  decide

/-- C6, amended: destination containment. Let no entry name of the archive
have a `..` element, and let the names be unrooted when `extractToDir` is the
empty string. Then the destination of every entry, which is the path the
pre-flight loop checks and the write loop creates and writes, lies under the
cleaned `extractToDir`; and every path that names something else after the
call than before either lies under the cleaned `extractToDir`, or is an
ancestor of it that named nothing before and names a directory after (the
missing ancestors of the destination directory, made by `os.MkdirAll`). -/
theorem Extract_contained (faults : Nat → Fault) (tpl : TxtarTemplate)
    (extractToDir : String) (fs : FS) (archive : Archive)
    (hparse : ParseFile fs tpl.LocalPathRendered = some archive)
    (hnames : ∀ f ∈ archive.Files,
      ".." ∉ elems f.Name ∧ (extractToDir ≠ "" ∨ rooted f.Name = false)) :
    (∀ f ∈ archive.Files, ∀ p, Join extractToDir f.Name = some p →
        p.under (Clean extractToDir)) ∧
      (∀ q, Stat (Extract faults tpl extractToDir fs).2 q ≠ Stat fs q →
        q.under (Clean extractToDir) ∨
          ((Clean extractToDir).under q ∧ Stat fs q = none ∧
            Stat (Extract faults tpl extractToDir fs).2 q = some Node.dir)) := by
  have hdest : ∀ f ∈ archive.Files, ∀ p, Join extractToDir f.Name = some p →
      p.under (Clean extractToDir) :=
    fun f hf p hj => Join_under extractToDir f.Name p (hnames f hf).1 (hnames f hf).2 hj
  refine ⟨hdest, ?_⟩
  intro q hq
  simp only [Extract, hparse, extractFiles] at hq ⊢
  split at hq
  · exact absurd rfl hq
  · rename_i hpre
    rcases writeEntries_change faults extractToDir archive.Files 0 fs q
      with h | ⟨f, hf, hj⟩ | ⟨h0, hd, f, hf, p, hp, hu⟩
    · exact absurd h hq
    · left; exact hdest f hf q hj
    · have hpD := hdest f hf p hp
      rcases List.suffix_or_suffix_of_suffix hu.2 hpD.2 with h | h
      · right
        exact ⟨⟨hpD.1.symm.trans hu.1, h⟩, h0, hd⟩
      · left
        exact ⟨hu.1.symm.trans hpD.1, h⟩

/-- C6, amended, at an instance: the entries `a/b.txt` and `c.txt` are
extracted into `/out/deep`, which does not exist. The destination
`/out/deep/a/b.txt` lies under `/out/deep`, and whatever changes lies under
`/out/deep` or is a new directory above it (here `/out`). -/
theorem Extract_contained_witness :
    Path.under ⟨true, ["b.txt", "a", "deep", "out"]⟩ (Clean "/out/deep") ∧
      (∀ q, Stat (Extract (fun _ => Fault.none) tplTmp "/out/deep"
          (fsRendered helloWorld)).2 q ≠ Stat (fsRendered helloWorld) q →
        q.under (Clean "/out/deep") ∨
          ((Clean "/out/deep").under q ∧ Stat (fsRendered helloWorld) q = none ∧
            Stat (Extract (fun _ => Fault.none) tplTmp "/out/deep"
              (fsRendered helloWorld)).2 q = some Node.dir)) := by
  have h := Extract_contained (fun _ => Fault.none) tplTmp "/out/deep" (fsRendered helloWorld)
    (Parse helloWorld) (by decide) (by decide)
  exact ⟨h.1 ⟨"a/b.txt", "hello\n"⟩ (by decide) ⟨true, ["b.txt", "a", "deep", "out"]⟩
    (by decide), h.2⟩

/-! ## FetchFromRemoteIfOld: the freshness gate -/

theorem Truncate_eq (d : Int) : Truncate d Second = Second * d.tdiv Second := by
  have h := Int.tmod_add_tdiv d Second
  simp only [Truncate, Second] at h ⊢
  rw [if_neg (by decide)]
  omega

theorem Truncate_neg_iff (d : Int) : Truncate d Second < 0 ↔ d ≤ -Second := by
  simp only [Truncate, Second]
  rw [if_neg (by decide)]
  rcases Int.le_total 0 d with h | h
  · rw [Int.tmod_eq_emod h (by decide)]
    omega
  · obtain ⟨e, rfl⟩ : ∃ e, d = -e := ⟨-d, by omega⟩
    have he : 0 ≤ e := by omega
    rw [Int.tmod_def, Int.neg_tdiv, Int.tdiv_eq_ediv he (by decide)]
    omega

theorem Sub_le_iff (now t : Int) : Sub now t ≤ -Second ↔ Second ≤ t - now := by
  simp only [Sub, minDuration, maxDuration, Second]
  split
  · omega
  · split <;> omega

theorem age_neg_iff (env : Env) (path : String) :
    durationSinceFileCreated env path < threshold ↔ futureDated env path = true := by
  have ht : threshold = 0 := by decide
  rw [ht]
  simp only [durationSinceFileCreated, futureDated]
  cases env.modTime path with
  | none => simp
  | some t =>
    simp only [Since, Truncate_neg_iff, Sub_le_iff, decide_eq_true_eq]

theorem FetchRemoteToLocal_fetches (env : Env) (tpl : TxtarTemplate) (w : World) :
    (FetchRemoteToLocal env tpl w).2.fetches = w.fetches + 1 := by
  simp only [FetchRemoteToLocal, fetchTemplateToPath]
  split
  · rfl
  · split
    · rfl
    · split
      · rfl
      · split
        · rfl
        · split
          · rfl
          · split
            · rfl
            · split <;> rfl

/-- C10, as stated, fails: the unrendered template exists and carries a
modification time two seconds later than the current time. The age is
minus two seconds, which is less than the threshold 0, so
`FetchFromRemoteIfOld` takes the cache-hit branch: `FetchRemoteToLocal` is not
called and no GET is issued. -/
theorem FetchFromRemoteIfOld_future_counterexample :
    FileExists fsFetched (lookupPath fsFetched tplTmp.LocalPathUnrendered) = true ∧
      durationSinceFileCreated (envAt 0 2000000000) tplTmp.LocalPathUnrendered
        = -2000000000 ∧
      (FetchFromRemoteIfOld (envAt 0 2000000000) tplTmp ⟨fsFetched, 0, 0⟩).fetches = 0 ∧
      (FetchFromRemoteIfOld (envAt 0 2000000000) tplTmp ⟨fsFetched, 0, 0⟩).gets = 0 := by
  decide

/-- C10, amended: with the threshold fixed at 0, `FetchFromRemoteIfOld` takes
the cache-hit branch, and then does nothing, exactly when the file exists and
its modification time is one second or more later than the current time; in
every other state (file absent, `os.Stat` failing, modification time in the
past or less than one second ahead) it makes exactly one call to
`FetchRemoteToLocal`. The age it compares is `time.Since(ModTime)` rounded
toward zero to whole seconds, or 0 when `os.Stat` fails. -/
theorem FetchFromRemoteIfOld_gate (env : Env) (tpl : TxtarTemplate) (w : World) :
    FetchFromRemoteIfOld env tpl w
        = (if FileExists w.fs (lookupPath w.fs tpl.LocalPathUnrendered) = true ∧
              futureDated env tpl.LocalPathUnrendered = true
            then w else (FetchRemoteToLocal env tpl w).2) ∧
      (FetchFromRemoteIfOld env tpl w).fetches
        = (if FileExists w.fs (lookupPath w.fs tpl.LocalPathUnrendered) = true ∧
              futureDated env tpl.LocalPathUnrendered = true
            then w.fetches else w.fetches + 1) ∧
      durationSinceFileCreated env tpl.LocalPathUnrendered
        = (match env.modTime tpl.LocalPathUnrendered with
            | none => 0
            | some modTime => Second * (Sub env.now modTime).tdiv Second) := by
  have hgate : FetchFromRemoteIfOld env tpl w
      = (if FileExists w.fs (lookupPath w.fs tpl.LocalPathUnrendered) = true ∧
            futureDated env tpl.LocalPathUnrendered = true
          then w else (FetchRemoteToLocal env tpl w).2) := by
    simp only [FetchFromRemoteIfOld, Bool.and_eq_true, decide_eq_true_eq, age_neg_iff]
  refine ⟨hgate, ?_, ?_⟩
  · rw [hgate]
    split
    · rfl
    · exact FetchRemoteToLocal_fetches env tpl w
  · simp only [durationSinceFileCreated, Since]
    cases env.modTime tpl.LocalPathUnrendered with
    | none => rfl
    | some t => exact Truncate_eq _

/-! ## Fetching -/

theorem isBase_of_Stat_none (fs : FS) (p : Path) (h : Stat fs p = none) :
    p.isBase = false := by
  cases hb : p.isBase
  · rfl
  · simp [Stat, hb] at h

theorem mkdirAllRev_ok (bad : Path → Bool) (abs : Bool) (rev : List String) (fs : FS)
    (h : (mkdirAllRev bad abs rev fs).1 = true) :
    Stat (mkdirAllRev bad abs rev fs).2 ⟨abs, rev⟩ = some Node.dir := by
  cases rev with
  | nil => simp [mkdirAllRev, Stat, Path.isBase]
  | cons e rest =>
    cases hs : Stat fs ⟨abs, e :: rest⟩ with
    | some n =>
      cases n with
      | dir =>
        simp only [mkdirAllRev, hs]
      | file x => simp [mkdirAllRev, hs] at h
    | none =>
      cases hr : mkdirAllRev bad abs rest fs with
      | mk ok fs1 =>
        cases ok
        · simp [mkdirAllRev, hs, hr] at h
        · cases hb : bad ⟨abs, e :: rest⟩
          · simp only [mkdirAllRev, hs, hr, hb, Bool.false_eq_true, if_false]
            exact Stat_set_self _ _ _ (isBase_of_Stat_none fs _ hs)
          · simp [mkdirAllRev, hs, hr, hb] at h

theorem mkdirAllRev_dir (bad : Path → Bool) (abs : Bool) (rev : List String) (fs : FS)
    (h : Stat fs ⟨abs, rev⟩ = some Node.dir) : mkdirAllRev bad abs rev fs = (true, fs) := by
  cases rev with
  | nil => rfl
  | cons e rest =>
    unfold mkdirAllRev
    simp only [h]

theorem MkdirAll_ok (bad : Path → Bool) (fs fs1 : FS) (p : Path)
    (h : MkdirAll bad fs p = (true, fs1)) : Stat fs1 p = some Node.dir := by
  have := mkdirAllRev_ok bad p.abs p.rev fs (by rw [← MkdirAll, h])
  rw [← MkdirAll, h] at this
  exact this

theorem MkdirAll_dir (bad : Path → Bool) (fs : FS) (p : Path)
    (h : Stat fs p = some Node.dir) : MkdirAll bad fs p = (true, fs) :=
  mkdirAllRev_dir bad p.abs p.rev fs h

theorem statNotExist_of_some (fs : FS) (p : Path) (n : Node) (h : Stat fs p = some n) :
    statNotExist fs p = false := by
  simp [statNotExist, h]

/-- The call returns nil without a GET when `os.Stat` does not report that
the destination is missing. -/
theorem fetch_skip (env : Env) (url localPath : String) (w : World) (fs1 : FS)
    (hmk : MkdirAll env.mkdirBad w.fs (Dir localPath) = (true, fs1))
    (hex : statNotExist fs1 (fetchDest url localPath) = false) :
    fetchTemplateToPath env url localPath w = (none, { w with fs := fs1 }) := by
  simp only [fetchDest] at hex
  simp only [fetchTemplateToPath, hmk, hex, Bool.not_false, if_true]

/-- What a call that returns nil has done: it made the directory, and then
either skipped the download or stored a response body at the destination. -/
theorem fetch_none_cases (env : Env) (url localPath : String) (w w1 : World)
    (h : fetchTemplateToPath env url localPath w = (none, w1)) :
    ∃ fs1, MkdirAll env.mkdirBad w.fs (Dir localPath) = (true, fs1) ∧
      ((statNotExist fs1 (fetchDest url localPath) = false ∧ w1 = { w with fs := fs1 }) ∨
        (statNotExist fs1 (fetchDest url localPath) = true ∧
          (fetchDest url localPath).isBase = false ∧
          ∃ body, env.httpGet w.gets url = some body ∧
            w1 = { w with
              fs := (fs1.set (fetchDest url localPath) (Node.file "")).set
                (fetchDest url localPath) (Node.file body)
              gets := w.gets + 1 })) := by
  simp only [fetchTemplateToPath] at h
  split at h
  · simp at h
  · rename_i fs1 hmk
    refine ⟨fs1, hmk, ?_⟩
    split at h
    · rename_i hex
      left
      simp only [Prod.mk.injEq, true_and] at h
      refine ⟨?_, h.symm⟩
      simpa [fetchDest] using hex
    · rename_i hex
      right
      have hex2 : statNotExist fs1 (fetchDest url localPath) = true := by
        simpa [fetchDest] using hex
      split at h
      · simp at h
      · rename_i body hget
        split at h
        · simp at h
        · rename_i file fs2 hc
          obtain ⟨hj, rfl, hb⟩ := Create_some _ _ _ _ _ hc
          simp only [Option.some.injEq] at hj
          subst hj
          split at h
          · simp at h
          · rename_i fs3 hw
            simp only [Prod.mk.injEq, true_and] at h
            cases hcf : env.copyFails with
            | some n =>
              rw [hcf] at hw
              simp [WriteAll] at hw
            | none =>
              rw [hcf] at hw
              simp only [WriteAll, Prod.mk.injEq, true_and] at hw
              subst hw
              exact ⟨hex2, hb, body, hget, h.symm⟩

theorem fetch_gets_le (env : Env) (url localPath : String) (w : World) :
    (fetchTemplateToPath env url localPath w).2.gets ≤ w.gets + 1 := by
  simp only [fetchTemplateToPath]
  split
  · simp
  · split
    · simp
    · split
      · simp
      · split
        · simp
        · split <;> simp

/-- After a call that returned nil the directory of `localPath` is a
directory and `os.Stat` finds something at the destination. -/
theorem fetch_none_after (env : Env) (url localPath : String) (w w1 : World)
    (h : fetchTemplateToPath env url localPath w = (none, w1)) :
    Stat w1.fs (Dir localPath) = some Node.dir ∧
      statNotExist w1.fs (fetchDest url localPath) = false := by
  obtain ⟨fs1, hmk, hcase⟩ := fetch_none_cases env url localPath w w1 h
  have hdir := MkdirAll_ok _ _ _ _ hmk
  rcases hcase with ⟨hex, rfl⟩ | ⟨hex, hb, body, _, rfl⟩
  · exact ⟨hdir, hex⟩
  · have hnone : Stat fs1 (fetchDest url localPath) = none := by
      simp only [statNotExist, Bool.and_eq_true, Option.isNone_iff_eq_none] at hex
      exact hex.1
    have hne : Dir localPath ≠ fetchDest url localPath := by
      intro heq
      rw [heq, hnone] at hdir
      cases hdir
    refine ⟨?_, ?_⟩
    · show Stat ((fs1.set _ _).set _ _) (Dir localPath) = some Node.dir
      rw [Stat_set_ne _ _ _ _ hne, Stat_set_ne _ _ _ _ hne]
      exact hdir
    · apply statNotExist_of_some _ _ (Node.file body)
      exact Stat_set_self _ _ _ hb

/-- C7, as stated, fails, in two ways. First: for the URL
`https://example.com/.` the last element is `.`, so the destination is the
directory of `localPath` itself; when that is the regular file
`/tmp/coalfoot/1-rendered.txt`, something exists at the destination, yet
`os.MkdirAll` fails on it and the call returns that error, not nil. Second:
when the destination file exists before the first call, two calls in a row
both return nil and perform no GET at all, not exactly one. -/
theorem fetch_idempotent_counterexample :
    (fetchDest "https://example.com/." "/tmp/coalfoot/1-rendered.txt/x"
        = ⟨true, ["1-rendered.txt", "coalfoot", "tmp"]⟩ ∧
      Stat (fsRendered "t") ⟨true, ["1-rendered.txt", "coalfoot", "tmp"]⟩
        = some (Node.file "t") ∧
      (fetchTemplateToPath (envAt 0 0) "https://example.com/."
        "/tmp/coalfoot/1-rendered.txt/x" ⟨fsRendered "t", 0, 0⟩).1 = some FetchErr.mkdir) ∧
    ((fetchTemplateToPath (envAt 0 0) tplTmp.RemoteURL tplTmp.LocalPathUnrendered
        ⟨fsFetched, 0, 0⟩).1 = none ∧
      (fetchTemplateToPath (envAt 0 0) tplTmp.RemoteURL tplTmp.LocalPathUnrendered
        (fetchTemplateToPath (envAt 0 0) tplTmp.RemoteURL tplTmp.LocalPathUnrendered
          ⟨fsFetched, 0, 0⟩).2).1 = none ∧
      (fetchTemplateToPath (envAt 0 0) tplTmp.RemoteURL tplTmp.LocalPathUnrendered
        (fetchTemplateToPath (envAt 0 0) tplTmp.RemoteURL tplTmp.LocalPathUnrendered
          ⟨fsFetched, 0, 0⟩).2).2.gets = 0) := by
  decide

/-- C7, amended: fetch idempotence. (1) If something exists at the
destination `filepath.Join(filepath.Dir(localPath), filepath.Base(url))` and
the directory creation succeeds, the call performs no GET, leaves what the
destination names unchanged and returns nil. (2) If a first call returns nil,
a second call with the same arguments, in whatever environment, returns nil
and leaves the state exactly as the first call left it: no GET and no change
to the file system; the two calls together perform at most one GET.
(3) They perform exactly one GET when the first call found nothing at the
destination after making the directory. -/
theorem fetch_idempotent (env1 env2 : Env) (url localPath : String) (w : World) :
    (∀ n, Stat w.fs (fetchDest url localPath) = some n →
      (MkdirAll env1.mkdirBad w.fs (Dir localPath)).1 = true →
      (fetchTemplateToPath env1 url localPath w).1 = none ∧
        (fetchTemplateToPath env1 url localPath w).2.gets = w.gets ∧
        Stat (fetchTemplateToPath env1 url localPath w).2.fs (fetchDest url localPath)
          = some n) ∧
    ((fetchTemplateToPath env1 url localPath w).1 = none →
      fetchTemplateToPath env2 url localPath (fetchTemplateToPath env1 url localPath w).2
          = (none, (fetchTemplateToPath env1 url localPath w).2) ∧
        (fetchTemplateToPath env1 url localPath w).2.gets ≤ w.gets + 1) ∧
    ((fetchTemplateToPath env1 url localPath w).1 = none →
      (MkdirAll env1.mkdirBad w.fs (Dir localPath)).1 = true →
      statNotExist (MkdirAll env1.mkdirBad w.fs (Dir localPath)).2 (fetchDest url localPath)
        = true →
      (fetchTemplateToPath env2 url localPath
        (fetchTemplateToPath env1 url localPath w).2).2.gets = w.gets + 1) := by
  have second : (fetchTemplateToPath env1 url localPath w).1 = none →
      fetchTemplateToPath env2 url localPath (fetchTemplateToPath env1 url localPath w).2
        = (none, (fetchTemplateToPath env1 url localPath w).2) := by
    intro h1
    have hrun : fetchTemplateToPath env1 url localPath w
        = (none, (fetchTemplateToPath env1 url localPath w).2) := Prod.ext h1 rfl
    obtain ⟨hdir, hex⟩ := fetch_none_after env1 url localPath w _ hrun
    exact fetch_skip env2 url localPath _ _ (MkdirAll_dir _ _ _ hdir) hex
  refine ⟨?_, ?_, ?_⟩
  · intro n hn hmk
    have hmk2 : MkdirAll env1.mkdirBad w.fs (Dir localPath)
        = (true, (MkdirAll env1.mkdirBad w.fs (Dir localPath)).2) := Prod.ext hmk rfl
    have hkeep := MkdirAll_keeps env1.mkdirBad w.fs (Dir localPath) _ n hn
    rw [fetch_skip env1 url localPath w _ hmk2 (statNotExist_of_some _ _ n hkeep)]
    exact ⟨rfl, rfl, hkeep⟩
  · intro h1
    exact ⟨second h1, fetch_gets_le env1 url localPath w⟩
  · intro h1 hmk hmiss
    rw [second h1]
    have hrun : fetchTemplateToPath env1 url localPath w
        = (none, (fetchTemplateToPath env1 url localPath w).2) := Prod.ext h1 rfl
    obtain ⟨fs1, hmk1, hcase⟩ := fetch_none_cases env1 url localPath w _ hrun
    rw [hmk1] at hmiss
    rcases hcase with ⟨hex, _⟩ | ⟨_, _, body, _, hw⟩
    · rw [hex] at hmiss
      cases hmiss
    · show (fetchTemplateToPath env1 url localPath w).2.gets = w.gets + 1
      rw [hw]

/-- C7, amended, at an instance: the descriptor of `NewTxtarTemplate` is
fetched twice into the empty cache directory. The first call downloads, the
second changes nothing, and one GET was issued in total. -/
theorem fetch_idempotent_witness :
    fetchTemplateToPath envGetFails tplTmp.RemoteURL tplTmp.LocalPathUnrendered
        (fetchTemplateToPath (envAt 0 0) tplTmp.RemoteURL tplTmp.LocalPathUnrendered
          ⟨fsCache, 0, 0⟩).2
      = (none, (fetchTemplateToPath (envAt 0 0) tplTmp.RemoteURL tplTmp.LocalPathUnrendered
          ⟨fsCache, 0, 0⟩).2) ∧
    (fetchTemplateToPath envGetFails tplTmp.RemoteURL tplTmp.LocalPathUnrendered
        (fetchTemplateToPath (envAt 0 0) tplTmp.RemoteURL tplTmp.LocalPathUnrendered
          ⟨fsCache, 0, 0⟩).2).2.gets = 1 := by
  have h := fetch_idempotent (envAt 0 0) envGetFails tplTmp.RemoteURL
    tplTmp.LocalPathUnrendered ⟨fsCache, 0, 0⟩
  exact ⟨(h.2.1 (by decide)).1, h.2.2 (by decide) (by decide) (by decide)⟩

/-! ## FetchRemoteToLocal -/

/-- When `filepath.Abs` and the directory creation succeed, `FetchRemoteToLocal`
returns nil and leaves the state `fetchTemplateToPath` leaves, whatever
`fetchTemplateToPath` returned. -/
theorem FetchRemoteToLocal_eq (env : Env) (tpl : TxtarTemplate) (w : World) (fs1 : FS)
    (habs : env.absFails = false)
    (hmk : MkdirAll env.mkdirBad w.fs (Dir tpl.LocalPathUnrendered) = (true, fs1)) :
    FetchRemoteToLocal env tpl w
      = (none, (fetchTemplateToPath env tpl.RemoteURL tpl.LocalPathUnrendered
          { w with fs := fs1, fetches := w.fetches + 1 }).2) := by
  simp only [FetchRemoteToLocal, habs, hmk]
  rfl

/-- The download itself: when nothing is found at the destination and the
GET, `os.Create` and `io.Copy` succeed, the response body is stored at the
destination and nothing else changes. -/
theorem fetch_download (env : Env) (url localPath body : String) (w : World) (fs1 : FS)
    (hmk : MkdirAll env.mkdirBad w.fs (Dir localPath) = (true, fs1))
    (hmiss : statNotExist fs1 (fetchDest url localPath) = true)
    (hget : env.httpGet w.gets url = some body)
    (hcreate : (Create env.createFails fs1 (some (fetchDest url localPath))).isSome = true)
    (hcopy : env.copyFails = none) :
    fetchTemplateToPath env url localPath w
      = (none, { w with
          fs := (fs1.set (fetchDest url localPath) (Node.file "")).set
            (fetchDest url localPath) (Node.file body)
          gets := w.gets + 1 }) ∧
      (fetchDest url localPath).isBase = false := by
  cases hc : Create env.createFails fs1 (some (fetchDest url localPath)) with
  | none =>
    rw [hc] at hcreate
    cases hcreate
  | some r =>
    obtain ⟨f, fs2⟩ := r
    obtain ⟨hj, rfl, hb⟩ := Create_some _ _ _ _ _ hc
    simp only [Option.some.injEq] at hj
    subst hj
    refine ⟨?_, hb⟩
    simp only [fetchDest] at hmiss hc
    simp only [fetchTemplateToPath, hmk, hmiss, Bool.not_true, hget, hc, hcopy, WriteAll,
      fetchDest]
    rfl

/-- C8, as stated, fails: for a descriptor whose URL ends in `other.txtar`
and whose local path is `/tmp/coalfoot/1.txtar`, fetched into the empty cache
directory with nothing failing, `FetchRemoteToLocal` returns nil after one
GET; nothing exists at `LocalPathUnrendered` afterwards, and the response
body is in `/tmp/coalfoot/other.txtar`. -/
theorem FetchRemoteToLocal_other_name_counterexample :
    (FetchRemoteToLocal (envAt 0 0) tplOther ⟨fsCache, 0, 0⟩).1 = none ∧
      (FetchRemoteToLocal (envAt 0 0) tplOther ⟨fsCache, 0, 0⟩).2.gets = 1 ∧
      lookupPath (FetchRemoteToLocal (envAt 0 0) tplOther ⟨fsCache, 0, 0⟩).2.fs
        tplOther.LocalPathUnrendered = some ⟨true, ["1.txtar", "coalfoot", "tmp"]⟩ ∧
      Stat (FetchRemoteToLocal (envAt 0 0) tplOther ⟨fsCache, 0, 0⟩).2.fs
        ⟨true, ["1.txtar", "coalfoot", "tmp"]⟩ = none ∧
      ReadFile (FetchRemoteToLocal (envAt 0 0) tplOther ⟨fsCache, 0, 0⟩).2.fs
        tplOther.LocalPathUnrendered = none ∧
      Stat (FetchRemoteToLocal (envAt 0 0) tplOther ⟨fsCache, 0, 0⟩).2.fs
        ⟨true, ["other.txtar", "coalfoot", "tmp"]⟩ = some (Node.file "body") := by
  decide

/-- C9: the code at the failing input. The cache directory is empty and every
GET fails. `fetchTemplateToPath` returns the error of the GET, but
`FetchRemoteToLocal` returns nil, although the file was neither downloaded
nor present before: nothing exists at the destination afterwards. -/
theorem FetchRemoteToLocal_swallows_get_failure :
    (fetchTemplateToPath envGetFails tplTmp.RemoteURL tplTmp.LocalPathUnrendered
        ⟨fsCache, 0, 1⟩).1 = some FetchErr.get ∧
      (FetchRemoteToLocal envGetFails tplTmp ⟨fsCache, 0, 0⟩).1 = none ∧
      Stat fsCache (fetchDest tplTmp.RemoteURL tplTmp.LocalPathUnrendered) = none ∧
      Stat (FetchRemoteToLocal envGetFails tplTmp ⟨fsCache, 0, 0⟩).2.fs
        (fetchDest tplTmp.RemoteURL tplTmp.LocalPathUnrendered) = none := by
  decide

/-- What `FetchRemoteToLocal` returns, in every state: the error of
`filepath.Abs`, else the error of its own `os.MkdirAll`, else nil. The
result of `fetchTemplateToPath` does not enter. -/
theorem FetchRemoteToLocal_result (env : Env) (tpl : TxtarTemplate) (w : World) :
    (FetchRemoteToLocal env tpl w).1
      = (if env.absFails = true then some FetchErr.abs
         else if (MkdirAll env.mkdirBad w.fs (Dir tpl.LocalPathUnrendered)).1 = true then none
         else some FetchErr.mkdir) := by
  simp only [FetchRemoteToLocal]
  split
  · rfl
  · cases h : MkdirAll env.mkdirBad w.fs (Dir tpl.LocalPathUnrendered) with
    | mk ok fs1 =>
      cases ok <;> simp

/-- What `fetchTemplateToPath` returns, in every state: the error of the
directory creation, nil when `os.Stat` does not report the destination
missing, else the error of the GET, of `os.Create` or of the copy, and nil
when all three succeed. -/
theorem fetchTemplateToPath_result (env : Env) (url localPath : String) (w : World) :
    (fetchTemplateToPath env url localPath w).1
      = (if (MkdirAll env.mkdirBad w.fs (Dir localPath)).1 = false then some FetchErr.mkdir
         else if statNotExist (MkdirAll env.mkdirBad w.fs (Dir localPath)).2
            (fetchDest url localPath) = false then none
         else if env.httpGet w.gets url = none then some FetchErr.get
         else if (Create env.createFails (MkdirAll env.mkdirBad w.fs (Dir localPath)).2
            (some (fetchDest url localPath))).isNone = true then some FetchErr.create
         else if env.copyFails = none then none
         else some FetchErr.copy) := by
  cases hmk : MkdirAll env.mkdirBad w.fs (Dir localPath) with
  | mk ok fs1 =>
    cases ok
    · simp [fetchTemplateToPath, hmk]
    · cases hex : statNotExist fs1 (JoinClean (Dir localPath) (Base url))
      · simp [fetchTemplateToPath, fetchDest, hmk, hex]
      · cases hget : env.httpGet w.gets url with
        | none => simp [fetchTemplateToPath, fetchDest, hmk, hex, hget]
        | some body =>
          cases hc : Create env.createFails fs1 (some (JoinClean (Dir localPath) (Base url))) with
          | none => simp [fetchTemplateToPath, fetchDest, hmk, hex, hget, hc]
          | some r =>
            cases hcf : env.copyFails with
            | none => simp [fetchTemplateToPath, fetchDest, hmk, hex, hget, hc, hcf, WriteAll]
            | some n => simp [fetchTemplateToPath, fetchDest, hmk, hex, hget, hc, hcf, WriteAll]

/-! ## txtar: the loop of `Parse` ends before its bound -/

theorem isMarker_after_lt (data : List Char) (h : (isMarker data).1 ≠ "") :
    (isMarker data).2.length < data.length := by
  unfold isMarker at h ⊢
  by_cases h3 : data.take 3 = marker
  · simp only [h3, if_true] at h ⊢
    have hpos : 0 < data.length := by
      cases data with
      | nil => simp [marker] at h3
      | cons c cs => simp
    split
    · have hle : (data.dropWhile (fun c => c ≠ '\n')).length ≤ data.length :=
        (List.dropWhile_sublist _).length_le
      simp only [List.length_tail]
      omega
    · rename_i hno
      simp only [hno, if_false] at h
      exact absurd rfl h
  · simp only [h3, if_false] at h
    exact absurd rfl h

theorem findFileMarkerAux_after_lt (data : List Char) :
    ∀ acc : List Char, (findFileMarkerAux acc data).2.1 ≠ "" →
      (findFileMarkerAux acc data).2.2.length < data.length := by
  induction data with
  | nil => intro acc h; exact absurd rfl h
  | cons c rest ih =>
    intro acc h
    unfold findFileMarkerAux at h ⊢
    by_cases hc : c = '\n'
    · simp only [hc, if_true] at h ⊢
      by_cases hm : (isMarker rest).1 ≠ ""
      · rw [if_pos hm]
        have := isMarker_after_lt rest hm
        simp only [List.length_cons]
        omega
      · rw [if_neg hm] at h ⊢
        have := ih _ h
        simp only [List.length_cons]
        omega
    · simp only [hc, if_false] at h ⊢
      have := ih _ h
      simp only [List.length_cons]
      omega

theorem findFileMarker_after_lt (data : List Char) (h : (findFileMarker data).2.1 ≠ "") :
    (findFileMarker data).2.2.length < data.length := by
  unfold findFileMarker at h ⊢
  by_cases hm : (isMarker data).1 ≠ ""
  · rw [if_pos hm]
    exact isMarker_after_lt data hm
  · rw [if_neg hm] at h ⊢
    exact findFileMarkerAux_after_lt data [] h

/-- The bound on the rounds of the loop of `txtar.Parse` is never reached:
any two bounds above the length of the remaining input give the same
files. -/
theorem parseFiles_fuel (n : Nat) :
    ∀ (m : Nat) (name : String) (data : List Char), data.length < n → data.length < m →
      parseFiles n name data = parseFiles m name data := by
  induction n with
  | zero => intro m name data h; omega
  | succ n ih =>
    intro m name data hn hm
    cases m with
    | zero => omega
    | succ m =>
      simp only [parseFiles]
      by_cases hname : name = ""
      · simp [hname]
      · simp only [hname, if_false, List.cons.injEq, true_and]
        by_cases hnext : (findFileMarker data).2.1 = ""
        · rw [hnext]
          cases n <;> cases m <;> simp [parseFiles]
        · have hlt := findFileMarker_after_lt data hnext
          exact ih m _ _ (by omega) (by omega)

/-- The function `txtar.Parse` with any larger bound on its loop gives the same archive. -/
theorem Parse_fuel (data : String) (n : Nat) (hn : data.data.length < n) :
    (Parse data).Files
      = parseFiles n (findFileMarker data.data).2.1 (findFileMarker data.data).2.2 := by
  simp only [Parse]
  by_cases hname : (findFileMarker data.data).2.1 = ""
  · rw [hname]
    cases n <;> simp [parseFiles]
  · have hlt := findFileMarker_after_lt data.data hname
    exact parseFiles_fuel _ n _ _ (by omega) (by omega)

/-! ## path/filepath: a path is its directory joined with its last element -/

theorem splitChars_plain (l : List Char) (h : '/' ∉ l) : splitChars l = [l] := by
  induction l with
  | nil => rfl
  | cons c cs ih =>
    simp only [List.mem_cons, not_or] at h
    rw [splitChars, if_neg (Ne.symm h.1), ih h.2]

theorem elems_plain (e : String) (h : '/' ∉ e.data) : elems e = [e] := by
  simp only [elems, splitChars_plain e.data h, List.map_cons, List.map_nil]

theorem pushElem_empty (p : Path) : pushElem p "" = p := by
  simp [pushElem]

/-- The part of a string after its last slash. -/
theorem tail_split (l : List Char) :
    l = uptoLastSlash l ++ (l.reverse.takeWhile (fun c => c ≠ '/')).reverse := by
  have h := List.takeWhile_append_dropWhile (fun c => decide (c ≠ '/')) l.reverse
  have h2 := congrArg List.reverse h
  simp only [List.reverse_append, List.reverse_reverse] at h2
  exact h2.symm

theorem tail_plain (l : List Char) :
    '/' ∉ (l.reverse.takeWhile (fun c => c ≠ '/')).reverse := by
  intro hmem
  rw [List.mem_reverse] at hmem
  have := List.mem_takeWhile_imp hmem
  simp at this

theorem dropWhile_slash (r : List Char) :
    r.dropWhile (fun c => c ≠ '/') = [] ∨ ∃ y, r.dropWhile (fun c => c ≠ '/') = '/' :: y := by
  induction r with
  | nil => left; rfl
  | cons c cs ih =>
    by_cases hc : c = '/'
    · right
      exact ⟨cs, by simp [List.dropWhile, hc]⟩
    · simpa [List.dropWhile, hc] using ih

theorem uptoLastSlash_shape (l : List Char) :
    uptoLastSlash l = [] ∨ ∃ x, uptoLastSlash l = x ++ ['/'] := by
  unfold uptoLastSlash
  rcases dropWhile_slash l.reverse with h | ⟨y, h⟩
  · left
    rw [h]
    rfl
  · right
    refine ⟨y.reverse, ?_⟩
    rw [h]
    simp

theorem rooted_mk_append (x rest rest2 : List Char) :
    rooted (String.mk (x ++ '/' :: rest)) = rooted (String.mk (x ++ '/' :: rest2)) := by
  cases x with
  | nil => rfl
  | cons c cs =>
    simp only [rooted, List.cons_append]
    by_cases hc : c = '/'
    · subst hc; rfl
    · split <;> rename_i heq
      · simp only [List.cons.injEq] at heq
        exact absurd heq.1 hc
      · split <;> rename_i heq2
        · simp only [List.cons.injEq] at heq2
          exact absurd heq2.1 hc
        · rfl

/-- Cleaning a string that does not end in a slash: clean what precedes the
last element, then process the last element. -/
theorem Clean_split (s : String) (last : List Char) (hlast : last ≠ [])
    (hplain : '/' ∉ last) (pre : List Char) (hs : s.data = pre ++ last)
    (hpre : pre = [] ∨ ∃ x, pre = x ++ ['/']) :
    Clean s = pushElem (Clean (String.mk pre)) (String.mk last) := by
  rcases hpre with rfl | ⟨x, rfl⟩
  · simp only [List.nil_append] at hs
    have hr : rooted s = false := by
      simp only [rooted, hs]
      cases last with
      | nil => exact absurd rfl hlast
      | cons c cs =>
        simp only [List.mem_cons, not_or] at hplain
        split <;> rename_i heq
        · simp only [List.cons.injEq] at heq
          exact absurd heq.1.symm hplain.1
        · rfl
    have he : elems s = [String.mk last] := by
      simp only [elems, hs, splitChars_plain last hplain, List.map_cons, List.map_nil]
    have hc : Clean (String.mk []) = ⟨false, []⟩ := by decide
    rw [hc, Clean, hr, he]
    rfl
  · have hs2 : s.data = x ++ '/' :: last := by
      rw [hs]; simp
    have he : elems s = (splitChars x).map String.mk ++ [String.mk last] := by
      simp only [elems, hs2, splitChars_append, splitChars_plain last hplain,
        List.map_append, List.map_cons, List.map_nil]
    have he2 : elems (String.mk (x ++ ['/'])) = (splitChars x).map String.mk ++ [""] := by
      have : (x ++ ['/'] : List Char) = x ++ '/' :: [] := rfl
      simp only [elems, this, splitChars_append, List.map_append]
      rfl
    have hr : rooted s = rooted (String.mk (x ++ ['/'])) := by
      have h1 : s = String.mk (x ++ '/' :: last) := by
        cases s
        simp only at hs2
        rw [hs2]
      rw [h1]
      exact rooted_mk_append x last []
    simp only [Clean, he, he2, hr, List.foldl_append, List.foldl_cons, List.foldl_nil,
      pushElem_empty]

theorem Base_split (s : String) (hne : s.data.reverse.head? ≠ some '/') (hs : s ≠ "") :
    Base s = String.mk (s.data.reverse.takeWhile (fun c => c ≠ '/')).reverse ∧
      (s.data.reverse.takeWhile (fun c => c ≠ '/')).reverse ≠ [] := by
  have hdata : s.data ≠ [] := by
    intro h
    apply hs
    cases s
    simp only at h
    subst h
    rfl
  cases hr : s.data.reverse with
  | nil =>
    simp only [List.reverse_eq_nil_iff] at hr
    exact absurd hr hdata
  | cons c cs =>
    rw [hr] at hne
    simp only [List.head?_cons, ne_eq, Option.some.injEq] at hne
    have hdrop : List.dropWhile (fun c => decide (c = '/')) (c :: cs) = c :: cs := by
      simp [List.dropWhile, hne]
    have htake : List.takeWhile (fun c => decide (c ≠ '/')) (c :: cs)
        = c :: List.takeWhile (fun c => decide (c ≠ '/')) cs := by
      simp [List.takeWhile, hne]
    constructor
    · simp only [Base, hs, if_false, hr, hdrop, htake]
      simp
    · rw [htake]
      simp

/-- When a string is not empty and does not end in a slash,
`filepath.Join(filepath.Dir(s), filepath.Base(s))` is `filepath.Clean(s)`. -/
theorem Clean_eq_Join_Dir_Base (s : String) (hs : s ≠ "")
    (hne : s.data.reverse.head? ≠ some '/') :
    Clean s = JoinClean (Dir s) (Base s) := by
  obtain ⟨hb, hlast⟩ := Base_split s hne hs
  have hplain := tail_plain s.data
  have he := elems_plain
    (String.mk (s.data.reverse.takeWhile (fun c => c ≠ '/')).reverse) hplain
  rw [hb, JoinClean, he, List.foldl_cons, List.foldl_nil, Dir]
  exact Clean_split s _ hlast hplain (uptoLastSlash s.data) (tail_split s.data)
    (uptoLastSlash_shape s.data)

/-! ## NewTxtarTemplate: the download lands on LocalPathUnrendered -/

theorem joinSlash_snoc (xs : List String) (e : String) :
    joinSlash (xs ++ [e]) = if xs = [] then e.data else joinSlash xs ++ '/' :: e.data := by
  induction xs with
  | nil => simp [joinSlash]
  | cons x rest ih =>
    by_cases hr : rest = []
    · subst hr
      simp [joinSlash]
    · have h1 : rest ++ [e] ≠ [] := by simp
      rw [List.cons_append, joinSlash, if_neg h1, ih, if_neg hr,
        if_neg (List.cons_ne_nil _ _), joinSlash, if_neg hr]
      simp

/-- The string of a cleaned path ends in its last element, which is preceded
by nothing or by a slash. -/
theorem render_cons (a : Bool) (e : String) (r : List String) :
    ∃ X, (Path.render ⟨a, e :: r⟩).data = X ++ e.data ∧ (X = [] ∨ ∃ x, X = x ++ ['/']) := by
  cases a with
  | true =>
    simp only [Path.render, List.reverse_cons, joinSlash_snoc]
    by_cases hr : r.reverse = []
    · refine ⟨['/'], ?_, Or.inr ⟨[], rfl⟩⟩
      simp [hr]
    · refine ⟨'/' :: joinSlash r.reverse ++ ['/'], ?_, Or.inr ⟨'/' :: joinSlash r.reverse, rfl⟩⟩
      simp [hr]
  | false =>
    simp only [Path.render, List.reverse_cons, joinSlash_snoc]
    by_cases hr : r.reverse = []
    · refine ⟨[], ?_, Or.inl rfl⟩
      simp [hr]
    · refine ⟨joinSlash r.reverse ++ ['/'], ?_, Or.inr ⟨joinSlash r.reverse, rfl⟩⟩
      simp [hr]

theorem uptoLastSlash_append (X l : List Char) (hl : '/' ∉ l)
    (hX : X = [] ∨ ∃ x, X = x ++ ['/']) : uptoLastSlash (X ++ l) = X := by
  unfold uptoLastSlash
  have hall : ∀ c ∈ l.reverse, (fun c => decide (c ≠ '/')) c = true := by
    intro c hc
    rw [List.mem_reverse] at hc
    have : c ≠ '/' := fun h => hl (h ▸ hc)
    simpa using this
  rw [List.reverse_append, List.dropWhile_append_of_pos hall]
  rcases hX with rfl | ⟨x, rfl⟩
  · rfl
  · simp [List.dropWhile]

/-- A string that ends in the plain element `e`, preceded by nothing or by a
slash, cleans to `filepath.Join(filepath.Dir(s), e)`. -/
theorem Clean_of_last (s e : String) (X : List Char) (he : e.data ≠ [])
    (hplain : '/' ∉ e.data) (hs : s.data = X ++ e.data)
    (hX : X = [] ∨ ∃ x, X = x ++ ['/']) :
    Clean s = JoinClean (Dir s) e := by
  have hmk : String.mk e.data = e := rfl
  have hclean := Clean_split s e.data he hplain X hs hX
  have hdir : Dir s = Clean (String.mk X) := by
    rw [Dir, hs, uptoLastSlash_append X e.data hplain hX]
  rw [JoinClean, elems_plain e hplain, List.foldl_cons, List.foldl_nil, hdir, hclean, hmk]

/-- Joining a plain element onto anything gives a path that ends in it. -/
theorem JoinStr_plain (a e : String) (he : e.data ≠ []) (hplain : '/' ∉ e.data)
    (hdot : e ≠ ".") (hdots : e ≠ "..") :
    ∃ p : Path, JoinStr a e = (Path.render ⟨p.abs, e :: p.rev⟩) := by
  have hne : e ≠ "" := by
    intro h
    rw [h] at he
    exact he rfl
  have hpush : ∀ p : Path, pushElem p e = ⟨p.abs, e :: p.rev⟩ := by
    intro p
    simp [pushElem, hne, hdot, hdots]
  by_cases ha : a = ""
  · subst ha
    refine ⟨⟨rooted e, []⟩, ?_⟩
    simp only [JoinStr, Join, if_true, if_neg hne, Clean, elems_plain e hplain,
      List.foldl_cons, List.foldl_nil, hpush]
  · refine ⟨Clean a, ?_⟩
    simp only [JoinStr, Join_eq_JoinClean a e ha, JoinClean, elems_plain e hplain,
      List.foldl_cons, List.foldl_nil, hpush]

/-- For the descriptor of `NewTxtarTemplate`, whatever `os.TempDir()` returns,
the path under which `fetchTemplateToPath` stores the download is the
cleaned `LocalPathUnrendered`. -/
theorem NewTxtarTemplate_dest (tmp : String) :
    Clean (NewTxtarTemplate tmp).LocalPathUnrendered
      = fetchDest (NewTxtarTemplate tmp).RemoteURL
          (NewTxtarTemplate tmp).LocalPathUnrendered := by
  obtain ⟨p, hp⟩ := JoinStr_plain (baseDir tmp) "1.txtar" (by decide) (by decide)
    (by decide) (by decide)
  obtain ⟨X, hX, hshape⟩ := render_cons p.abs "1.txtar" p.rev
  have hlpu : (NewTxtarTemplate tmp).LocalPathUnrendered
      = Path.render ⟨p.abs, "1.txtar" :: p.rev⟩ := hp
  have hurl : (NewTxtarTemplate tmp).RemoteURL = tplTmp.RemoteURL := rfl
  have hbase : Base (NewTxtarTemplate tmp).RemoteURL = "1.txtar" := by
    rw [hurl]
    decide
  rw [fetchDest, hbase, hlpu]
  exact Clean_of_last _ "1.txtar" X (by decide) (by decide) hX hshape

/-! ## path/filepath: cleaned paths and their strings

The functions `DirClean` and `JoinClean` work on cleaned paths in normal
form. The lemmas of this section show that they agree with `Dir` and `Join`
on the strings the paths stand for. -/

theorem normal_nil (a : Bool) : Path.normal ⟨a, []⟩ := by
  intro pre e suf h
  cases pre <;> cases h

theorem normal_tail (a : Bool) (e : String) (r : List String)
    (h : Path.normal ⟨a, e :: r⟩) : Path.normal ⟨a, r⟩ := by
  intro pre x suf hx
  simp only at hx
  exact h (e :: pre) x suf (by rw [hx]; rfl)

theorem normal_cons (p : Path) (e : String) (hp : p.normal) (he : plainElem e)
    (hdots : e = ".." → p.abs = false ∧ ∀ d ∈ p.rev, d = "..") :
    Path.normal ⟨p.abs, e :: p.rev⟩ := by
  intro pre x suf hx
  cases pre with
  | nil =>
    simp only [List.nil_append, List.cons.injEq] at hx
    obtain ⟨rfl, rfl⟩ := hx
    exact ⟨he, hdots⟩
  | cons y pre =>
    simp only [List.cons_append, List.cons.injEq] at hx
    exact hp pre x suf hx.2

theorem pushElem_normal (p : Path) (e : String) (hp : p.normal) (he : '/' ∉ e.data) :
    (pushElem p e).normal := by
  unfold pushElem
  by_cases h1 : e = "" ∨ e = "."
  · rw [if_pos h1]
    exact hp
  · rw [if_neg h1]
    simp only [not_or] at h1
    have hplain : plainElem e := by
      refine ⟨?_, h1.2, he⟩
      intro hd
      apply h1.1
      cases e
      simp only at hd
      subst hd
      rfl
    by_cases h2 : e = ".."
    · rw [if_pos h2]
      subst h2
      cases hr : p.rev with
      | nil =>
        simp only
        by_cases ha : p.abs = true
        · rw [if_pos ha]
          exact hp
        · rw [if_neg ha]
          exact normal_cons ⟨false, []⟩ ".." (normal_nil false) hplain
            (fun _ => ⟨rfl, fun d hd => by cases hd⟩)
      | cons d rest =>
        simp only
        by_cases hd : d = ".."
        · rw [if_pos hd]
          subst hd
          have h0 := hp [] ".." rest (by rw [hr]; rfl)
          have := normal_cons p ".." hp hplain (fun _ => ⟨(h0.2 rfl).1, by
            intro x hx
            rw [hr] at hx
            rcases List.mem_cons.mp hx with rfl | hx
            · rfl
            · exact (h0.2 rfl).2 x hx⟩)
          rw [hr] at this
          exact this
        · rw [if_neg hd]
          have : Path.normal ⟨p.abs, d :: rest⟩ := by
            rw [← hr]
            exact hp
          exact normal_tail p.abs d rest this
    · rw [if_neg h2]
      exact normal_cons p e hp hplain (fun h => absurd h h2)

theorem splitChars_no_slash (l : List Char) : ∀ x ∈ splitChars l, '/' ∉ x := by
  induction l with
  | nil =>
    intro x hx
    simp only [splitChars, List.mem_singleton] at hx
    subst hx
    simp
  | cons c cs ih =>
    intro x hx
    rw [splitChars] at hx
    by_cases hc : c = '/'
    · rw [if_pos hc] at hx
      rcases List.mem_cons.mp hx with rfl | hx
      · simp
      · exact ih x hx
    · rw [if_neg hc] at hx
      cases hs : splitChars cs with
      | nil => exact absurd hs (splitChars_ne_nil cs)
      | cons h t =>
        rw [hs] at hx ih
        simp only at hx
        rcases List.mem_cons.mp hx with rfl | hx
        · have := ih h (List.mem_cons_self _ _)
          simp only [List.mem_cons, not_or]
          exact ⟨Ne.symm hc, this⟩
        · exact ih x (List.mem_cons_of_mem _ hx)

theorem foldl_pushElem_normal (es : List String) :
    ∀ p : Path, p.normal → (∀ e ∈ es, '/' ∉ e.data) → (es.foldl pushElem p).normal := by
  induction es with
  | nil => intro p hp _; exact hp
  | cons e rest ih =>
    intro p hp h
    simp only [List.foldl_cons]
    exact ih _ (pushElem_normal p e hp (h e (List.mem_cons_self _ _)))
      (fun x hx => h x (List.mem_cons_of_mem _ hx))

theorem elems_no_slash (s : String) : ∀ e ∈ elems s, '/' ∉ e.data := by
  intro e he
  simp only [elems, List.mem_map] at he
  obtain ⟨x, hx, rfl⟩ := he
  exact splitChars_no_slash s.data x hx

/-- The function `filepath.Clean` returns a path in normal form. -/
theorem Clean_normal (s : String) : (Clean s).normal :=
  foldl_pushElem_normal (elems s) _ (normal_nil _) (elems_no_slash s)

theorem JoinClean_normal (d : Path) (b : String) (hd : d.normal) : (JoinClean d b).normal :=
  foldl_pushElem_normal (elems b) d hd (elems_no_slash b)

theorem pushElem_of_normal (a : Bool) (e : String) (r : List String)
    (h : Path.normal ⟨a, e :: r⟩) : pushElem ⟨a, r⟩ e = ⟨a, e :: r⟩ := by
  have h0 := h [] e r rfl
  obtain ⟨⟨hne, hdot, _⟩, hdots⟩ := h0
  have hne2 : e ≠ "" := by
    intro he
    rw [he] at hne
    exact hne rfl
  unfold pushElem
  rw [if_neg (by simp [hne2, hdot])]
  by_cases h2 : e = ".."
  · rw [if_pos h2]
    obtain ⟨ha, hall⟩ := hdots h2
    simp only at ha
    subst ha h2
    cases r with
    | nil => rfl
    | cons d rest =>
      have hd : d = ".." := hall d (List.mem_cons_self _ _)
      simp [hd]
  · rw [if_neg h2]

theorem Clean_join (a b : String) (ha : a ≠ "") :
    Clean (a ++ "/" ++ b) = JoinClean (Clean a) b := by
  simp only [Clean, JoinClean, elems_join, rooted_join a b ha, List.foldl_append]

/-- The string of a cleaned path: the string of its parent, a slash, and the
last element. -/
theorem render_cons_data (a : Bool) (e : String) (r : List String) :
    (Path.render ⟨a, e :: r⟩).data
      = (if r = [] then (if a = true then ['/'] else [])
          else (Path.render ⟨a, r⟩).data ++ ['/']) ++ e.data := by
  cases r with
  | nil =>
    cases a <;> simp [Path.render, joinSlash]
  | cons d rest =>
    have hne : (d :: rest).reverse ≠ [] := by simp
    cases a
    · simp only [Path.render, List.reverse_cons _ (d :: rest), joinSlash_snoc, if_neg hne]
      simp
    · simp only [Path.render, List.reverse_cons _ (d :: rest), joinSlash_snoc, if_neg hne]
      simp

theorem render_ne_empty (a : Bool) (e : String) (r : List String) (he : e.data ≠ []) :
    Path.render ⟨a, e :: r⟩ ≠ "" := by
  intro h
  have := render_cons_data a e r
  rw [h] at this
  have hlen := congrArg List.length this
  simp only [List.length_append] at hlen
  have : 0 < e.data.length := List.length_pos.mpr he
  simp only [String.data, List.length_nil] at hlen
  omega

/-- Cleaning the string of a cleaned path gives the path back. -/
theorem Clean_render (a : Bool) (rev : List String) :
    Path.normal ⟨a, rev⟩ → Clean (Path.render ⟨a, rev⟩) = ⟨a, rev⟩ := by
  induction rev with
  | nil =>
    intro _
    cases a <;> decide
  | cons e r ih =>
    intro h
    have hplain := (h [] e r rfl).1
    have hdata := render_cons_data a e r
    have hpre : Clean (String.mk (if r = [] then (if a = true then ['/'] else [])
        else (Path.render ⟨a, r⟩).data ++ ['/'])) = ⟨a, r⟩ := by
      cases r with
      | nil => cases a <;> decide
      | cons d rest =>
        have hd := (h [e] d rest rfl).1
        rw [if_neg (List.cons_ne_nil _ _)]
        have hmk : String.mk ((Path.render ⟨a, d :: rest⟩).data ++ ['/'])
            = Path.render ⟨a, d :: rest⟩ ++ "/" ++ "" := by
          apply String.ext
          simp [String.data_append]
        rw [hmk, Clean_join _ _ (render_ne_empty a d rest hd.1), ih (normal_tail a e _ h)]
        simp [JoinClean, elems, splitChars, pushElem]
    have hshape : (if r = [] then (if a = true then ['/'] else [])
        else (Path.render ⟨a, r⟩).data ++ ['/']) = [] ∨
        ∃ x, (if r = [] then (if a = true then ['/'] else [])
          else (Path.render ⟨a, r⟩).data ++ ['/']) = x ++ ['/'] := by
      by_cases hr : r = []
      · rw [if_pos hr]
        cases a
        · left; rfl
        · right; exact ⟨[], rfl⟩
      · rw [if_neg hr]
        right
        exact ⟨_, rfl⟩
    rw [Clean_split _ e.data hplain.1 hplain.2.2 _ hdata hshape, hpre]
    exact pushElem_of_normal a e r h

/-- On the string of a cleaned path, `filepath.Dir` is `DirClean`. -/
theorem Dir_render (p : Path) (h : p.normal) : Dir p.render = DirClean (some p) := by
  obtain ⟨a, rev⟩ := p
  cases rev with
  | nil => cases a <;> decide
  | cons e r =>
    have hplain := (h [] e r rfl).1
    have hshape : (if r = [] then (if a = true then ['/'] else [])
        else (Path.render ⟨a, r⟩).data ++ ['/']) = [] ∨
        ∃ x, (if r = [] then (if a = true then ['/'] else [])
          else (Path.render ⟨a, r⟩).data ++ ['/']) = x ++ ['/'] := by
      by_cases hr : r = []
      · rw [if_pos hr]
        cases a
        · left; rfl
        · right; exact ⟨[], rfl⟩
      · rw [if_neg hr]
        right
        exact ⟨_, rfl⟩
    rw [Dir, render_cons_data, uptoLastSlash_append _ _ hplain.2.2 hshape]
    simp only [DirClean, List.tail_cons]
    cases r with
    | nil => cases a <;> decide
    | cons d rest =>
      have hd := (h [e] d rest rfl).1
      rw [if_neg (List.cons_ne_nil _ _)]
      have hmk : String.mk ((Path.render ⟨a, d :: rest⟩).data ++ ['/'])
          = Path.render ⟨a, d :: rest⟩ ++ "/" ++ "" := by
        apply String.ext
        simp [String.data_append]
      rw [hmk, Clean_join _ _ (render_ne_empty a d rest hd.1),
        Clean_render a (d :: rest) (normal_tail a e _ h)]
      simp [JoinClean, elems, splitChars, pushElem]

/-- On the string of a cleaned path, `filepath.Join` is `JoinClean`. -/
theorem Join_render (d : Path) (b : String) (h : d.normal) :
    Join d.render b = some (JoinClean d b) := by
  obtain ⟨a, rev⟩ := d
  have hne : Path.render ⟨a, rev⟩ ≠ "" := by
    cases rev with
    | nil => cases a <;> decide
    | cons e r => exact render_ne_empty a e r (h [] e r rfl).1.1
  rw [Join_eq_JoinClean _ _ hne, Clean_render a rev h]

/-- In `Extract`, the directory passed to `os.MkdirAll` is `filepath.Dir` of
the string `filepath.Join` returned. -/
theorem DirClean_Join (extractToDir name : String) (p : Path)
    (h : Join extractToDir name = some p) : DirClean (some p) = Dir p.render := by
  have hn : p.normal := by
    simp only [Join] at h
    split at h
    · split at h
      · cases h
      · simp only [Option.some.injEq] at h
        rw [← h]
        exact Clean_normal _
    · simp only [Option.some.injEq] at h
      rw [← h]
      exact Clean_normal _
  exact (Dir_render p hn).symm

/-- In `fetchTemplateToPath`, the file name is `filepath.Join` of the string of
the directory and the last element of the URL. -/
theorem fetchDest_eq (url localPath : String) :
    Join (Dir localPath).render (Base url) = some (fetchDest url localPath) :=
  Join_render (Dir localPath) (Base url) (Clean_normal _)

/-! ## File system: well-formed states and the resolution of path strings -/

theorem isBase_nil_of_rev (p : Path) (h : p.rev = []) : p.isBase = true := by
  simp [Path.isBase, h]

theorem isBase_tail (p : Path) (h : p.isBase = true) :
    Path.isBase ⟨p.abs, p.rev.tail⟩ = true := by
  simp only [Path.isBase, List.all_eq_true] at h ⊢
  intro e he
  exact h e (List.mem_of_mem_tail he)

theorem Stat_base (fs : FS) (p : Path) (h : p.isBase = true) : Stat fs p = some Node.dir := by
  simp [Stat, h]

theorem wellFormed_empty : FS.wellFormed FS.empty := by
  intro p hp
  cases hb : p.isBase
  · simp [Stat, hb, FS.empty] at hp
  · exact Stat_base _ _ (isBase_tail p hb)

theorem tail_ne (k : Path) (hk : k.isBase = false) : (⟨k.abs, k.rev.tail⟩ : Path) ≠ k := by
  intro h
  have hrev : k.rev.tail = k.rev := congrArg Path.rev h
  cases hr : k.rev with
  | nil =>
    rw [isBase_nil_of_rev k hr] at hk
    cases hk
  | cons e r =>
    rw [hr] at hrev
    have := congrArg List.length hrev
    simp at this

/-- Making `k` name something keeps the file system well formed, when the
parent of `k` is a directory and `k` is made a directory or was none. -/
theorem wellFormed_set (fs : FS) (k : Path) (n : Node) (hwf : fs.wellFormed)
    (hk : k.isBase = false) (hpar : Stat fs ⟨k.abs, k.rev.tail⟩ = some Node.dir)
    (hn : n = Node.dir ∨ Stat fs k ≠ some Node.dir) : (fs.set k n).wellFormed := by
  intro p hp
  by_cases hpk : p = k
  · subst hpk
    rw [Stat_set_ne _ _ _ _ (tail_ne p hk)]
    exact hpar
  · rw [Stat_set_ne _ _ _ _ hpk] at hp
    have hparent := hwf p hp
    by_cases hq : (⟨p.abs, p.rev.tail⟩ : Path) = k
    · rw [hq] at hparent ⊢
      rcases hn with rfl | hn
      · exact Stat_set_self _ _ _ hk
      · exact absurd hparent hn
    · rw [Stat_set_ne _ _ _ _ hq]
      exact hparent

theorem mkdirAllRev_wellFormed (bad : Path → Bool) (abs : Bool) (rev : List String) (fs : FS)
    (hwf : fs.wellFormed) : (mkdirAllRev bad abs rev fs).2.wellFormed := by
  induction rev with
  | nil => exact hwf
  | cons e rest ih =>
    cases hs : Stat fs ⟨abs, e :: rest⟩ with
    | some n =>
      cases n with
      | dir =>
        simp only [mkdirAllRev, hs]
        exact hwf
      | file x =>
        simp only [mkdirAllRev, hs]
        exact hwf
    | none =>
      have hok := mkdirAllRev_ok bad abs rest fs
      cases hr : mkdirAllRev bad abs rest fs with
      | mk ok fs1 =>
        rw [hr] at ih hok
        cases ok
        · simp only [mkdirAllRev, hs, hr]
          exact ih
        · cases hb : bad ⟨abs, e :: rest⟩
          · simp only [mkdirAllRev, hs, hr, hb, Bool.false_eq_true, if_false]
            exact wellFormed_set fs1 ⟨abs, e :: rest⟩ Node.dir ih
              (isBase_of_Stat_none fs _ hs) (hok rfl) (Or.inl rfl)
          · simp only [mkdirAllRev, hs, hr, hb, if_true]
            exact ih

theorem MkdirAll_wellFormed (bad : Path → Bool) (fs : FS) (p : Path) (hwf : fs.wellFormed) :
    (MkdirAll bad fs p).2.wellFormed :=
  mkdirAllRev_wellFormed bad p.abs p.rev fs hwf

/-- In a well-formed file system every ancestor of a directory is a
directory. -/
theorem ancestors_dir (fs : FS) (hwf : fs.wellFormed) (a : Bool) (rev : List String) :
    Stat fs ⟨a, rev⟩ = some Node.dir → ∀ s, s <:+ rev → Stat fs ⟨a, s⟩ = some Node.dir := by
  induction rev with
  | nil =>
    intro h s hs
    rw [List.suffix_nil] at hs
    rw [hs]
    exact h
  | cons e r ih =>
    intro h s hs
    rcases List.suffix_cons_iff.mp hs with rfl | hs
    · exact h
    · have hpar := hwf ⟨a, e :: r⟩ (by rw [h]; rfl)
      exact ih hpar s hs

theorem normal_suffix (a : Bool) (pre s : List String) (h : Path.normal ⟨a, pre ++ s⟩) :
    Path.normal ⟨a, s⟩ := by
  intro p x suf hx
  simp only at hx
  exact h (pre ++ p) x suf (by rw [hx, List.append_assoc])

/-- Walking along the elements of a cleaned path, through directories that
exist, arrives at that path. -/
theorem walk_comps (fs : FS) (a : Bool) (whole : List String)
    (hn : Path.normal ⟨a, whole⟩)
    (hd : ∀ s, s <:+ whole → s ≠ whole → Stat fs ⟨a, s⟩ = some Node.dir) :
    ∀ comps acc : List String, comps.reverse ++ acc = whole →
      walk fs ⟨a, acc⟩ comps = some ⟨a, whole⟩ := by
  intro comps
  induction comps with
  | nil =>
    intro acc h
    simp only [List.reverse_nil, List.nil_append] at h
    rw [h]
    rfl
  | cons c rest ih =>
    intro acc h
    have h2 : rest.reverse ++ (c :: acc) = whole := by
      rw [← h]
      simp
    have hsuf : acc <:+ whole := ⟨(c :: rest).reverse, h⟩
    have hne : acc ≠ whole := by
      intro heq
      have hl := congrArg List.length h2
      rw [← heq] at hl
      simp only [List.length_append, List.length_reverse, List.length_cons] at hl
      omega
    have hstep : pushElem ⟨a, acc⟩ c = ⟨a, c :: acc⟩ := by
      apply pushElem_of_normal
      apply normal_suffix a rest.reverse
      rw [h2]
      exact hn
    simp only [walk, hd acc hsuf hne, hstep]
    exact ih (c :: acc) h2

theorem splitChars_joinSlash (rev : List String) (hne : rev ≠ [])
    (hplain : ∀ e ∈ rev, '/' ∉ e.data) :
    splitChars (joinSlash rev.reverse) = rev.reverse.map String.data := by
  induction rev with
  | nil => exact absurd rfl hne
  | cons e r ih =>
    have he := hplain e (List.mem_cons_self _ _)
    by_cases hr : r = []
    · subst hr
      simp [joinSlash, splitChars_plain e.data he]
    · have hr2 : r.reverse ≠ [] := by simpa using hr
      rw [List.reverse_cons, joinSlash_snoc, if_neg hr2, splitChars_append,
        ih hr (fun x hx => hplain x (List.mem_cons_of_mem _ hx)),
        splitChars_plain e.data he]
      simp

theorem elems_mk_map (l : List String) :
    (l.map String.data).map String.mk = l := by
  induction l with
  | nil => rfl
  | cons x xs ih =>
    simp only [List.map_cons, ih]

theorem joinSlash_head (c : String) (cs : List String) (hc : c.data ≠ [])
    (hplain : '/' ∉ c.data) : rooted (String.mk (joinSlash (c :: cs))) = false := by
  cases hd : c.data with
  | nil => exact absurd hd hc
  | cons x xs =>
    rw [hd] at hplain
    simp only [List.mem_cons, not_or] at hplain
    simp only [rooted, joinSlash, hd, List.cons_append]
    split <;> rename_i heq
    · simp only [List.cons.injEq] at heq
      exact absurd heq.1.symm hplain.1
    · rfl

/-- The operating system resolves the string of a cleaned path to that path,
when every directory above it exists. -/
theorem lookupPath_render (fs : FS) (p : Path) (hn : p.normal)
    (hd : ∀ s, s <:+ p.rev → s ≠ p.rev → Stat fs ⟨p.abs, s⟩ = some Node.dir) :
    lookupPath fs p.render = some p := by
  obtain ⟨a, rev⟩ := p
  cases rev with
  | nil =>
    cases a
    · have h1 : Path.render ⟨false, []⟩ = "." := rfl
      have h2 : elems "." = ["."] := by decide
      have h3 : rooted "." = false := by decide
      have h4 : pushElem ⟨false, []⟩ "." = ⟨false, []⟩ := by decide
      rw [lookupPath, h1, if_neg (by decide), h2, h3]
      simp only [walk, Stat_base fs ⟨false, []⟩ rfl, h4]
    · have h1 : Path.render ⟨true, []⟩ = "/" := rfl
      have h2 : elems "/" = ["", ""] := by decide
      have h3 : rooted "/" = true := by decide
      have h4 : pushElem ⟨true, []⟩ "" = ⟨true, []⟩ := by decide
      rw [lookupPath, h1, if_neg (by decide), h2, h3]
      simp only [walk, Stat_base fs ⟨true, []⟩ rfl, h4]
  | cons e r =>
    have hplainAll : ∀ x ∈ e :: r, plainElem x := by
      intro x hx
      obtain ⟨pre, suf, hsplit⟩ := List.append_of_mem hx
      exact (hn pre x suf hsplit).1
    have hsplit := splitChars_joinSlash (e :: r) (List.cons_ne_nil _ _)
      (fun x hx => (hplainAll x hx).2.2)
    have hwalk := walk_comps fs a (e :: r) hn hd (e :: r).reverse []
      (by simp)
    rw [lookupPath, if_neg (render_ne_empty a e r (hplainAll e (List.mem_cons_self _ _)).1)]
    cases a
    · have helems : elems (Path.render ⟨false, e :: r⟩) = (e :: r).reverse := by
        simp only [elems, Path.render, hsplit, elems_mk_map]
      have hroot : rooted (Path.render ⟨false, e :: r⟩) = false := by
        simp only [Path.render]
        cases hc : (e :: r).reverse with
        | nil => simp at hc
        | cons c cs =>
          have hmem : c ∈ e :: r := by
            rw [← List.mem_reverse, hc]
            exact List.mem_cons_self _ _
          exact joinSlash_head c cs (hplainAll c hmem).1 (hplainAll c hmem).2.2
      rw [helems, hroot]
      exact hwalk
    · have helems : elems (Path.render ⟨true, e :: r⟩) = "" :: (e :: r).reverse := by
        simp only [elems, Path.render, splitChars, if_true, hsplit, List.map_cons,
          elems_mk_map]
      have hroot : rooted (Path.render ⟨true, e :: r⟩) = true := rfl
      have h4 : pushElem ⟨true, []⟩ "" = ⟨true, []⟩ := by decide
      rw [helems, hroot]
      simp only [walk, Stat_base fs ⟨true, []⟩ rfl, h4]
      exact hwalk

theorem wellFormed_fsCache : fsCache.wellFormed := by
  unfold fsCache
  apply wellFormed_set _ _ _ _ (by decide) (by decide) (Or.inl rfl)
  exact wellFormed_set _ _ _ wellFormed_empty (by decide) (by decide) (Or.inl rfl)

theorem render_last_not_slash (a : Bool) (e : String) (r : List String)
    (he : e.data ≠ []) (hplain : '/' ∉ e.data) :
    (Path.render ⟨a, e :: r⟩).data.reverse.head? ≠ some '/' := by
  rw [render_cons_data, List.reverse_append]
  cases hrev : e.data.reverse with
  | nil =>
    simp only [List.reverse_eq_nil_iff] at hrev
    exact absurd hrev he
  | cons c cs =>
    simp only [List.cons_append, List.head?_cons, ne_eq, Option.some.injEq]
    intro hc
    apply hplain
    rw [← List.mem_reverse, hrev, hc]
    exact List.mem_cons_self _ _

/-- For a cleaned `localPath` with the same last element as the URL, the
path under which `fetchTemplateToPath` stores the download is `localPath`. -/
theorem fetchDest_cleaned (url : String) (p : Path) (hn : p.normal)
    (hbase : Base url = Base p.render) : fetchDest url p.render = p := by
  obtain ⟨a, rev⟩ := p
  cases rev with
  | nil =>
    rw [fetchDest, hbase]
    cases a <;> decide
  | cons e r =>
    have hplain := (hn [] e r rfl).1
    rw [fetchDest, hbase,
      ← Clean_eq_Join_Dir_Base _ (render_ne_empty a e r hplain.1)
        (render_last_not_slash a e r hplain.1 hplain.2.2)]
    exact Clean_render a (e :: r) hn

theorem JoinStr_normal (a b : String) (hb : b ≠ "") :
    ∃ q : Path, q.normal ∧ JoinStr a b = q.render := by
  by_cases ha : a = ""
  · refine ⟨Clean b, Clean_normal b, ?_⟩
    simp [JoinStr, Join, ha, hb]
  · refine ⟨Clean (a ++ "/" ++ b), Clean_normal _, ?_⟩
    simp [JoinStr, Join, ha]

/-! ## FetchRemoteToLocal: where the download is stored -/

/-- An example of the resolution of path strings: in the cache directory the
string `/tmp/missing/../coalfoot/1.txtar` resolves to nothing, because
`/tmp/missing` does not exist, although it cleans to
`/tmp/coalfoot/1.txtar`; the string `/tmp//coalfoot/./1.txtar` resolves to
that path. -/
theorem lookupPath_examples :
    lookupPath fsFetched "/tmp/missing/../coalfoot/1.txtar" = none ∧
      Clean "/tmp/missing/../coalfoot/1.txtar" = ⟨true, ["1.txtar", "coalfoot", "tmp"]⟩ ∧
      lookupPath fsFetched "/tmp//coalfoot/./1.txtar"
        = some ⟨true, ["1.txtar", "coalfoot", "tmp"]⟩ := by
  decide

/-- C8, amended: the download destination. When `FetchRemoteToLocal` runs,
`filepath.Abs` and the directory creation succeed, `os.Stat` finds nothing at
the destination `filepath.Join(filepath.Dir(LocalPathUnrendered),
filepath.Base(RemoteURL))`, and the GET, `os.Create` and the copy succeed,
then the response body is stored at that destination. The file at
`LocalPathUnrendered` holds the response body afterwards whenever the
operating system resolves `LocalPathUnrendered` to that destination. In a
well-formed file system this is so when `LocalPathUnrendered` is a cleaned
path (it is the string `filepath.Clean` returns for it) with the same last
element as `RemoteURL`, and in particular for the descriptor of
`NewTxtarTemplate`, whatever `os.TempDir()` returns. -/
theorem FetchRemoteToLocal_stores (env : Env) (tpl : TxtarTemplate) (w : World)
    (body : String) (habs : env.absFails = false)
    (hmk : (MkdirAll env.mkdirBad w.fs (Dir tpl.LocalPathUnrendered)).1 = true)
    (hmiss : statNotExist (MkdirAll env.mkdirBad w.fs (Dir tpl.LocalPathUnrendered)).2
      (fetchDest tpl.RemoteURL tpl.LocalPathUnrendered) = true)
    (hget : env.httpGet w.gets tpl.RemoteURL = some body)
    (hcreate : (Create env.createFails
      (MkdirAll env.mkdirBad w.fs (Dir tpl.LocalPathUnrendered)).2
      (some (fetchDest tpl.RemoteURL tpl.LocalPathUnrendered))).isSome = true)
    (hcopy : env.copyFails = none) :
    (FetchRemoteToLocal env tpl w).1 = none ∧
      (FetchRemoteToLocal env tpl w).2.gets = w.gets + 1 ∧
      Stat (FetchRemoteToLocal env tpl w).2.fs
        (fetchDest tpl.RemoteURL tpl.LocalPathUnrendered) = some (Node.file body) ∧
      (lookupPath (FetchRemoteToLocal env tpl w).2.fs tpl.LocalPathUnrendered
          = some (fetchDest tpl.RemoteURL tpl.LocalPathUnrendered) →
        ReadFile (FetchRemoteToLocal env tpl w).2.fs tpl.LocalPathUnrendered = some body) ∧
      (w.fs.wellFormed →
        tpl.LocalPathUnrendered = (Clean tpl.LocalPathUnrendered).render →
        Base tpl.RemoteURL = Base tpl.LocalPathUnrendered →
        ReadFile (FetchRemoteToLocal env tpl w).2.fs tpl.LocalPathUnrendered = some body) ∧
      (∀ tmp, tpl = NewTxtarTemplate tmp → w.fs.wellFormed →
        ReadFile (FetchRemoteToLocal env tpl w).2.fs tpl.LocalPathUnrendered = some body) := by
  have hmk2 : MkdirAll env.mkdirBad w.fs (Dir tpl.LocalPathUnrendered)
      = (true, (MkdirAll env.mkdirBad w.fs (Dir tpl.LocalPathUnrendered)).2) :=
    Prod.ext hmk rfl
  have hdir := MkdirAll_ok _ _ _ _ hmk2
  rw [FetchRemoteToLocal_eq env tpl w _ habs hmk2]
  obtain ⟨hrun, hb⟩ := fetch_download env tpl.RemoteURL tpl.LocalPathUnrendered body
    { w with fs := (MkdirAll env.mkdirBad w.fs (Dir tpl.LocalPathUnrendered)).2,
             fetches := w.fetches + 1 }
    (MkdirAll env.mkdirBad w.fs (Dir tpl.LocalPathUnrendered)).2
    (MkdirAll_dir _ _ _ hdir) hmiss hget hcreate hcopy
  rw [hrun]
  have hstat : Stat (((MkdirAll env.mkdirBad w.fs (Dir tpl.LocalPathUnrendered)).2.set
      (fetchDest tpl.RemoteURL tpl.LocalPathUnrendered) (Node.file "")).set
      (fetchDest tpl.RemoteURL tpl.LocalPathUnrendered) (Node.file body))
      (fetchDest tpl.RemoteURL tpl.LocalPathUnrendered) = some (Node.file body) :=
    Stat_set_self _ _ _ hb
  have hread : lookupPath (((MkdirAll env.mkdirBad w.fs (Dir tpl.LocalPathUnrendered)).2.set
        (fetchDest tpl.RemoteURL tpl.LocalPathUnrendered) (Node.file "")).set
        (fetchDest tpl.RemoteURL tpl.LocalPathUnrendered) (Node.file body))
        tpl.LocalPathUnrendered
      = some (fetchDest tpl.RemoteURL tpl.LocalPathUnrendered) →
      ReadFile (((MkdirAll env.mkdirBad w.fs (Dir tpl.LocalPathUnrendered)).2.set
        (fetchDest tpl.RemoteURL tpl.LocalPathUnrendered) (Node.file "")).set
        (fetchDest tpl.RemoteURL tpl.LocalPathUnrendered) (Node.file body))
        tpl.LocalPathUnrendered = some body := by
    intro hlook
    simp only [ReadFile, hlook, hstat]
  -- a cleaned local path that is the destination is resolved to it afterwards
  have key : w.fs.wellFormed → ∀ p : Path, p.normal → tpl.LocalPathUnrendered = p.render →
      fetchDest tpl.RemoteURL tpl.LocalPathUnrendered = p →
      ReadFile (((MkdirAll env.mkdirBad w.fs (Dir tpl.LocalPathUnrendered)).2.set
        (fetchDest tpl.RemoteURL tpl.LocalPathUnrendered) (Node.file "")).set
        (fetchDest tpl.RemoteURL tpl.LocalPathUnrendered) (Node.file body))
        tpl.LocalPathUnrendered = some body := by
    intro hwf p hn hlpu hdest
    apply hread
    have hnone : Stat (MkdirAll env.mkdirBad w.fs (Dir tpl.LocalPathUnrendered)).2 p = none := by
      simp only [statNotExist, Bool.and_eq_true, Option.isNone_iff_eq_none] at hmiss
      rw [← hdest]
      exact hmiss.1
    have hwf1 := MkdirAll_wellFormed env.mkdirBad w.fs (Dir tpl.LocalPathUnrendered) hwf
    have hparent : Stat (MkdirAll env.mkdirBad w.fs (Dir tpl.LocalPathUnrendered)).2
        ⟨p.abs, p.rev.tail⟩ = some Node.dir := by
      have hd2 : Dir tpl.LocalPathUnrendered = ⟨p.abs, p.rev.tail⟩ := by
        rw [hlpu, Dir_render p hn]
        rfl
      rw [← hd2]
      exact hdir
    have hlk : ∀ fs2 : FS,
        (∀ s, s <:+ p.rev → s ≠ p.rev → Stat fs2 ⟨p.abs, s⟩ = some Node.dir) →
        lookupPath fs2 tpl.LocalPathUnrendered = some p := by
      intro fs2 h
      rw [hlpu]
      exact lookupPath_render fs2 p hn h
    rw [hdest]
    apply hlk
    intro s hs hne
    have hs2 : s <:+ p.rev.tail := by
      cases hrev : p.rev with
      | nil =>
        rw [hrev] at hs hne
        rw [List.suffix_nil] at hs
        exact absurd hs hne
      | cons e r =>
        rw [hrev] at hs hne
        rcases List.suffix_cons_iff.mp hs with h | h
        · exact absurd h hne
        · exact h
    have hsdir := ancestors_dir _ hwf1 p.abs p.rev.tail hparent s hs2
    have hsp : (⟨p.abs, s⟩ : Path) ≠ p := by
      intro heq
      exact hne (congrArg Path.rev heq)
    rw [Stat_set_ne _ _ _ _ hsp, Stat_set_ne _ _ _ _ hsp]
    exact hsdir
  refine ⟨rfl, rfl, hstat, hread, ?_, ?_⟩
  · intro hwf hclean hbase
    apply key hwf (Clean tpl.LocalPathUnrendered) (Clean_normal _) hclean
    have := fetchDest_cleaned tpl.RemoteURL (Clean tpl.LocalPathUnrendered) (Clean_normal _)
      (by rw [← hclean]; exact hbase)
    rw [← hclean] at this
    exact this
  · intro tmp htpl hwf
    obtain ⟨q, hq, hqr⟩ := JoinStr_normal (baseDir tmp) "1.txtar" (by decide)
    have hlpu : tpl.LocalPathUnrendered = q.render := by
      rw [htpl]
      exact hqr
    apply key hwf q hq hlpu
    have hd := NewTxtarTemplate_dest tmp
    rw [← htpl] at hd
    rw [← hd, hlpu]
    exact Clean_render q.abs q.rev hq

/-- C8, amended, at the descriptor of `NewTxtarTemplate` with `/tmp` for
`os.TempDir()`: fetched into the empty cache directory, the response body is
afterwards in the file at `LocalPathUnrendered`. -/
theorem FetchRemoteToLocal_stores_witness :
    (FetchRemoteToLocal (envAt 0 0) tplTmp ⟨fsCache, 0, 0⟩).1 = none ∧
      ReadFile (FetchRemoteToLocal (envAt 0 0) tplTmp ⟨fsCache, 0, 0⟩).2.fs
        tplTmp.LocalPathUnrendered = some "body" := by
  have h := FetchRemoteToLocal_stores (envAt 0 0) tplTmp ⟨fsCache, 0, 0⟩ "body" rfl
    (by decide) (by decide) rfl (by decide) rfl
  exact ⟨h.1, h.2.2.2.2.2 "/tmp" rfl wellFormed_fsCache⟩

end Coalfoot
